import Mathlib

/-!
Verification of the meet-qa audio/agenda core against its specification.

The Rust source under `src/src-tauri/src` is shallowly embedded below:

* `f32` sample values, scores and thresholds are modelled as exact rationals
  (`ℚ`); every `f32` value is a rational, and none of the verified claims
  depends on rounding of sample arithmetic — with one exception, the
  fractional index accumulator of `write_input_data`, whose claim is
  precisely about `f32` rounding; for it a faithful binary32
  round-to-nearest-even model (`roundF32`) is introduced.
* stateful code becomes explicit state passing; the Ollama HTTP backend and
  the serde JSON parser are modelled as oracle function parameters
  (`gen`, `serde`), universally quantified in the theorems.
* `cosine_similarity` needs a real square root, so it lands in `ℝ`; the
  scoring engine's similarity gate uses the computable exact comparison
  `cosLtQ`, proved equivalent to the `ℝ`-valued comparison.
-/

namespace MeetQA

/-! ## Resampling ring buffer (`src/src-tauri/src/audio.rs`, `write_input_data`)

The Rust loop is

    let ratio = input_rate as f32 / SAMPLE_RATE as f32;   -- SAMPLE_RATE = 16000
    let mut index = 0.0;
    while (index as usize) < input.len() {
        let val = input[index as usize];
        guard.push_back(val);
        if guard.len() > max_samples { guard.pop_front(); }
        index += ratioQ;
    }

With exact (rational) index arithmetic the loop splits into the list of
pushed values (`pushSeq`) and a fold of the push/trim step (`buf_step`).
`numSteps` is the exact number of loop iterations for a positive ratioQ:
the index after `k` steps is `k * ratio`, so the loop runs while
`k * ratio < len`, i.e. for `k = 0, …, ⌈len/ratio⌉ - 1`.
`pushSeq_fuel_sufficient` below proves this fuel bound exhausts the loop. -/

/-- Number of iterations of the `write_input_data` loop: least `k` with
the length over the ratio (`0` for a nonpositive ratio; the Rust loop would not terminate
then, and all theorems about the buffer assume a positive rate). -/
def numSteps (ratioQ : ℚ) (len : ℕ) : ℕ :=
  if 0 < ratioQ then ⌈(len : ℚ) / ratioQ⌉₊ else 0

/-- The sequence of input samples appended by the loop, starting from the
fractional index `index`, with `fuel` remaining iterations.  `index as usize`
in Rust truncates toward zero, which for the nonnegative index equals
`⌊index⌋.toNat`. -/
def pushSeq (input : List ℚ) (ratioQ : ℚ) : ℕ → ℚ → List ℚ
  | 0, _ => []
  | fuel + 1, index =>
    if h : ⌊index⌋.toNat < input.length then
      input.get ⟨⌊index⌋.toNat, h⟩ :: pushSeq input ratioQ fuel (index + ratioQ)
    else []

/-- One push of the loop body: `push_back val` then `pop_front` if the
buffer exceeds `max_samples`. -/
def buf_step (max_samples : ℕ) (buf : List ℚ) (val : ℚ) : List ℚ :=
  let b := buf ++ [val]
  if max_samples < b.length then b.tail else b

/-- The full list of samples the loop pushes for one ingest call. -/
def pushedSamples (input : List ℚ) (input_rate : ℕ) : List ℚ :=
  let ratioQ : ℚ := (input_rate : ℚ) / 16000
  pushSeq input ratioQ (numSteps ratioQ input.length) 0

/-- Embedding of `write_input_data` from `audio.rs` (exact-arithmetic index model):
decimate/upsample `input` by the nearest-index walk and fold the pushed
samples into the bounded buffer. -/
def write_input_data (input : List ℚ) (input_rate : ℕ) (max_samples : ℕ)
    (buf : List ℚ) : List ℚ :=
  (pushedSamples input input_rate).foldl (buf_step max_samples) buf

/-- A sequence of ingest calls, each with its own input slice and rate. -/
def apply_ingests (calls : List (List ℚ × ℕ)) (max_samples : ℕ)
    (buf : List ℚ) : List ℚ :=
  calls.foldl (fun b c => write_input_data c.1 c.2 max_samples b) buf

/-- Extra fuel beyond the guard-failure point does not change `pushSeq`:
once `len ≤ index`, the guard fails and the walk stops. -/
theorem pushSeq_guard_closed (input : List ℚ) (ratioQ : ℚ) :
    ∀ (n extra : ℕ) (index : ℚ), (input.length : ℚ) ≤ index + n * ratioQ →
      pushSeq input ratioQ (n + extra) index = pushSeq input ratioQ n index := by
  intro n
  induction n with
  | zero =>
    intro extra index hle
    simp only [Nat.cast_zero, zero_mul, add_zero] at hle
    cases extra with
    | zero => rfl
    | succ m =>
      simp only [Nat.zero_add, pushSeq]
      rw [dif_neg]
      intro hlt
      have hfloor : (input.length : ℤ) ≤ ⌊index⌋ := by
        exact_mod_cast Int.le_floor.mpr (by exact_mod_cast hle)
      have h0 : (0 : ℤ) ≤ ⌊index⌋ := le_trans (by positivity) hfloor
      have : input.length ≤ ⌊index⌋.toNat := by omega
      omega
  | succ n ih =>
    intro extra index hle
    by_cases h : ⌊index⌋.toNat < input.length
    · have hrec : (input.length : ℚ) ≤ (index + ratioQ) + n * ratioQ := by
        have : (index + ratioQ) + (n : ℚ) * ratioQ = index + (n + 1 : ℕ) * ratioQ := by
          push_cast; ring
        rw [this]; exact hle
      show pushSeq input ratioQ (n + 1 + extra) index = pushSeq input ratioQ (n + 1) index
      have hshift : n + 1 + extra = (n + extra) + 1 := by omega
      rw [hshift]
      simp only [pushSeq, dif_pos h]
      rw [ih extra (index + ratioQ) hrec]
    · have hshift : n + 1 + extra = (n + extra) + 1 := by omega
      rw [hshift]
      simp only [pushSeq, dif_neg h]

/-- The fuel `numSteps` is exact: adding fuel changes nothing, so
the finite `pushSeq` walk coincides with the unbounded Rust loop. -/
theorem pushSeq_fuel_sufficient (input : List ℚ) (ratioQ : ℚ) (hr : 0 < ratioQ)
    (extra : ℕ) :
    pushSeq input ratioQ (numSteps ratioQ input.length + extra) 0 =
      pushSeq input ratioQ (numSteps ratioQ input.length) 0 := by
  apply pushSeq_guard_closed input ratioQ _ _ 0
  rw [zero_add, numSteps, if_pos hr]
  have h := Nat.le_ceil ((input.length : ℚ) / ratioQ)
  calc (input.length : ℚ) = ((input.length : ℚ) / ratioQ) * ratioQ := by
        field_simp
    _ ≤ (⌈(input.length : ℚ) / ratioQ⌉₊ : ℚ) * ratioQ := by
        exact mul_le_mul_of_nonneg_right h (le_of_lt hr)

/-- One push/trim step keeps the buffer within `max_samples` provided it
started within the bound. -/
theorem buf_step_length_le (max_samples : ℕ) (buf : List ℚ) (val : ℚ)
    (h : buf.length ≤ max_samples) :
    (buf_step max_samples buf val).length ≤ max_samples := by
  unfold buf_step
  by_cases hlt : max_samples < (buf ++ [val]).length
  · rw [if_pos hlt]
    simp only [List.length_tail, List.length_append, List.length_singleton]
    omega
  · rw [if_neg hlt]
    simp only [List.length_append, List.length_singleton] at *
    omega

/-- Folding any pushed sequence preserves the capacity bound. -/
theorem foldl_buf_step_length_le (max_samples : ℕ) :
    ∀ (pushed : List ℚ) (buf : List ℚ), buf.length ≤ max_samples →
      (pushed.foldl (buf_step max_samples) buf).length ≤ max_samples := by
  intro pushed
  induction pushed with
  | nil => intro buf h; exact h
  | cons v rest ih =>
    intro buf h
    exact ih (buf_step max_samples buf v) (buf_step_length_le max_samples buf v h)

/-- Closed form of the push/trim fold: starting within capacity, the final
buffer is the concatenation of the old buffer and the pushed samples with
the excess dropped from the front (oldest first). -/
theorem foldl_buf_step_closed_form (max_samples : ℕ) :
    ∀ (pushed : List ℚ) (buf : List ℚ), buf.length ≤ max_samples →
      pushed.foldl (buf_step max_samples) buf =
        (buf ++ pushed).drop (buf.length + pushed.length - max_samples) := by
  intro pushed
  induction pushed with
  | nil =>
    intro buf h
    simp only [List.foldl_nil, List.length_nil, List.append_nil, add_zero]
    rw [Nat.sub_eq_zero_of_le h, List.drop_zero]
  | cons v rest ih =>
    intro buf h
    simp only [List.foldl_cons]
    by_cases hlt : max_samples < (buf ++ [v]).length
    · have hlen : buf.length = max_samples := by
        simp only [List.length_append, List.length_singleton] at hlt
        omega
      have hstep : buf_step max_samples buf v = (buf ++ [v]).tail := by
        unfold buf_step; rw [if_pos hlt]
      have htail_len : (buf ++ [v]).tail.length ≤ max_samples := by
        simp only [List.length_tail, List.length_append, List.length_singleton]
        omega
      rw [hstep, ih _ htail_len]
      have e1 : (buf ++ [v]).tail ++ rest = (buf ++ v :: rest).drop 1 := by
        rw [← List.drop_one, ← List.drop_append_of_le_length (by simp)]
        simp
      have e2 : (buf ++ [v]).tail.length = max_samples := by
        simp only [List.length_tail, List.length_append, List.length_singleton]
        omega
      rw [e1, e2, List.drop_drop]
      have hidx : 1 + (max_samples + rest.length - max_samples)
          = buf.length + (v :: rest).length - max_samples := by
        simp only [List.length_cons]
        omega
      rw [hidx]
    · have hstep : buf_step max_samples buf v = buf ++ [v] := by
        unfold buf_step; rw [if_neg hlt]
      have hlen2 : (buf ++ [v]).length ≤ max_samples := by omega
      rw [hstep, ih _ hlen2]
      have e1 : (buf ++ [v]) ++ rest = buf ++ v :: rest := by simp
      rw [e1]
      have hidx : (buf ++ [v]).length + rest.length - max_samples
          = buf.length + (v :: rest).length - max_samples := by
        simp only [List.length_append, List.length_cons, List.length_nil]
        omega
      rw [hidx]

/-- A single ingest call preserves the capacity bound. -/
theorem write_input_data_length_le (input : List ℚ) (input_rate : ℕ)
    (max_samples : ℕ) (buf : List ℚ) (h : buf.length ≤ max_samples) :
    (write_input_data input input_rate max_samples buf).length ≤ max_samples :=
  foldl_buf_step_length_le max_samples _ buf h

/-- At the canonical rate the ratio is `1` and the walk visits every input
index in order: the pushed sequence is the input itself. -/
theorem pushSeq_ratio_one (input : List ℚ) :
    pushSeq input 1 input.length 0 = input := by
  suffices h : ∀ (n k : ℕ), n + k = input.length →
      pushSeq input 1 n (k : ℚ) = input.drop k by
    have := h input.length 0 (by omega)
    simpa using this
  intro n
  induction n with
  | zero =>
    intro k hk
    rw [pushSeq, eq_comm, List.drop_eq_nil_iff]
    omega
  | succ m ih =>
    intro k hk
    have hfloor : (⌊(k : ℚ)⌋).toNat = k := by
      rw [Int.floor_natCast]; exact Int.toNat_natCast k
    have hlt : (⌊(k : ℚ)⌋).toNat < input.length := by omega
    rw [pushSeq, dif_pos hlt]
    have hcast : (k : ℚ) + 1 = ((k + 1 : ℕ) : ℚ) := by push_cast; ring
    rw [hcast, ih (k + 1) (by omega)]
    have hk_lt : k < input.length := by omega
    conv_rhs => rw [List.drop_eq_getElem_cons hk_lt]
    congr 1

/-- C3: for every initial buffer within capacity and every sequence of
ingest calls (`write_input_data`) with arbitrary input slices and positive
rates, the buffer length stays `≤ max_samples`, and on each call the
oldest samples are evicted from the front: a single call equals the
concatenation of the old buffer and the pushed samples with the excess
dropped from the front.  (The claim's "after each call" follows by
instantiating the call list with each prefix of the sequence; a zero rate
is excluded because the Rust loop would not return from such a call.) -/
theorem C3_buffer_length_invariant (calls : List (List ℚ × ℕ))
    (max_samples : ℕ) (buf : List ℚ) (input : List ℚ) (rate : ℕ)
    (b : List ℚ) (hrates : ∀ c ∈ calls, 0 < c.2)
    (hbuf : buf.length ≤ max_samples) (hb : b.length ≤ max_samples) :
    (apply_ingests calls max_samples buf).length ≤ max_samples ∧
    write_input_data input rate max_samples b =
      (b ++ pushedSamples input rate).drop
        (b.length + (pushedSamples input rate).length - max_samples) := by
  constructor
  · clear hrates
    induction calls generalizing buf with
    | nil => exact hbuf
    | cons c rest ih =>
      exact ih _ (write_input_data_length_le c.1 c.2 max_samples buf hbuf)
  · exact foldl_buf_step_closed_form max_samples _ b hb

/-- Witness for C3 at a concrete input: two ingest calls at rates 16000 and
32000 into an initially empty buffer of capacity 2. -/
theorem C3_buffer_length_invariant_witness :
    (∀ c ∈ ([([1, 2, 3], 16000), ([4, 5], 32000)] : List (List ℚ × ℕ)),
        0 < c.2) ∧
    (apply_ingests [([1, 2, 3], 16000), ([4, 5], 32000)] 2 []).length ≤ 2 ∧
    write_input_data [1, 2, 3] 16000 2 [] =
      (([] : List ℚ) ++ pushedSamples [1, 2, 3] 16000).drop
        (([] : List ℚ).length + (pushedSamples [1, 2, 3] 16000).length - 2) :=
  ⟨by decide,
    C3_buffer_length_invariant [([1, 2, 3], 16000), ([4, 5], 32000)] 2 []
      [1, 2, 3] 16000 [] (by decide) (by decide) (by decide)⟩

/-- At the canonical rate the pushed sequence is the input itself
(pure FIFO pass-through). -/
theorem pushedSamples_canonical_rate (input : List ℚ) :
    pushedSamples input 16000 = input := by
  unfold pushedSamples
  have hrq16 : ((16000 : ℕ) : ℚ) / 16000 = 1 := by norm_num
  rw [hrq16]
  show pushSeq input 1 (numSteps 1 input.length) 0 = input
  have hsteps : numSteps 1 input.length = input.length := by
    rw [numSteps, if_pos one_pos, div_one, Nat.ceil_natCast]
  rw [hsteps, pushSeq_ratio_one]

/-- C4: overflow eviction keeps the most recent `max_samples` samples in
order, discarding the oldest first.  At the canonical 1x rate an ingest
into an empty buffer leaves exactly `input.drop (input.length - max)`, and
in particular ingesting `[1,2,3,4,5]` with `max_samples = 3` at rate 16000
yields `[3,4,5]`. -/
theorem C4_overflow_keeps_most_recent (input : List ℚ) (max_samples : ℕ) :
    write_input_data input 16000 max_samples [] =
      input.drop (input.length - max_samples) ∧
    write_input_data [1, 2, 3, 4, 5] 16000 3 [] = [3, 4, 5] := by
  constructor
  · unfold write_input_data
    rw [pushedSamples_canonical_rate,
      foldl_buf_step_closed_form max_samples input [] (by simp)]
    simp
  · have h := pushedSamples_canonical_rate [1, 2, 3, 4, 5]
    unfold write_input_data
    rw [h]
    decide

/-! ## IEEE-754 binary32 rounding

Several claims depend on `f32` arithmetic itself, so rounding is modelled
faithfully: round-to-nearest, ties to even, over 24 significand bits
(`roundPos`/`roundF32`, adequate for the normal range exercised by the
resampling index of C10) and, where underflow matters, over the subnormal
fixed-point grid as well (`roundF32sub`, with the real-valued twin
`roundF32Rsub` for rounding square roots).  A binary32 value is carried as
the exact rational (or real) it denotes. -/

/-- Round half to even of a rational to an integer (the rounding used by
Rust `{:.N}` float formatting and by IEEE-754 binary32 addition). -/
def rhe (q : ℚ) : ℤ :=
  if q - ⌊q⌋ < 1 / 2 then ⌊q⌋
  else if 1 / 2 < q - ⌊q⌋ then ⌊q⌋ + 1
  else if ⌊q⌋ % 2 = 0 then ⌊q⌋ else ⌊q⌋ + 1

/-- Evaluation rules for round half to even. -/
theorem rhe_of_lt {q : ℚ} (h : q - ⌊q⌋ < 1 / 2) : rhe q = ⌊q⌋ := by
  unfold rhe
  rw [if_pos h]

theorem rhe_of_gt {q : ℚ} (h : 1 / 2 < q - ⌊q⌋) : rhe q = ⌊q⌋ + 1 := by
  unfold rhe
  rw [if_neg (by linarith), if_pos h]

theorem rhe_of_tie_even {q : ℚ} (h : q - ⌊q⌋ = 1 / 2)
    (he : ⌊q⌋ % 2 = 0) : rhe q = ⌊q⌋ := by
  unfold rhe
  rw [if_neg (by linarith), if_neg (by linarith), if_pos he]

theorem rhe_of_tie_odd {q : ℚ} (h : q - ⌊q⌋ = 1 / 2)
    (he : ¬⌊q⌋ % 2 = 0) : rhe q = ⌊q⌋ + 1 := by
  unfold rhe
  rw [if_neg (by linarith), if_neg (by linarith), if_neg he]

/-- Round half to even lies between the floor and the floor plus one. -/
theorem rhe_ge_floor (q : ℚ) : ⌊q⌋ ≤ rhe q := by
  unfold rhe
  by_cases c1 : q - ⌊q⌋ < 1 / 2
  · rw [if_pos c1]
  · rw [if_neg c1]
    by_cases c2 : 1 / 2 < q - ⌊q⌋
    · rw [if_pos c2]; omega
    · rw [if_neg c2]
      by_cases c3 : ⌊q⌋ % 2 = 0
      · rw [if_pos c3]
      · rw [if_neg c3]; omega

theorem rhe_le_floor_add_one (q : ℚ) : rhe q ≤ ⌊q⌋ + 1 := by
  unfold rhe
  by_cases c1 : q - ⌊q⌋ < 1 / 2
  · rw [if_pos c1]; omega
  · rw [if_neg c1]
    by_cases c2 : 1 / 2 < q - ⌊q⌋
    · rw [if_pos c2]
    · rw [if_neg c2]
      by_cases c3 : ⌊q⌋ % 2 = 0
      · rw [if_pos c3]; omega
      · rw [if_neg c3]

/-- Round half to even is monotone. -/
theorem rhe_mono {x y : ℚ} (h : x ≤ y) : rhe x ≤ rhe y := by
  by_cases hf : ⌊x⌋ < ⌊y⌋
  · calc rhe x ≤ ⌊x⌋ + 1 := rhe_le_floor_add_one x
      _ ≤ ⌊y⌋ := by omega
      _ ≤ rhe y := rhe_ge_floor y
  · have hfe : ⌊x⌋ = ⌊y⌋ := le_antisymm (Int.floor_le_floor h) (by omega)
    have hfr : x - (⌊x⌋ : ℚ) ≤ y - (⌊y⌋ : ℚ) := by
      rw [hfe]
      exact sub_le_sub_right h _
    rcases lt_trichotomy (x - (⌊x⌋ : ℚ)) (1 / 2) with c1 | c1 | c1
    · rw [rhe_of_lt c1, hfe]
      exact rhe_ge_floor y
    · have hhalf : (1 / 2 : ℚ) ≤ y - ⌊y⌋ := c1 ▸ hfr
      rcases lt_or_eq_of_le hhalf with c2 | c2
      · calc rhe x ≤ ⌊x⌋ + 1 := rhe_le_floor_add_one x
          _ = ⌊y⌋ + 1 := by rw [hfe]
          _ = rhe y := (rhe_of_gt c2).symm
      · have hfy : y - (⌊y⌋ : ℚ) = 1 / 2 := c2.symm
        by_cases he : ⌊x⌋ % 2 = 0
        · rw [rhe_of_tie_even c1 he, rhe_of_tie_even hfy (hfe ▸ he), hfe]
        · rw [rhe_of_tie_odd c1 he, rhe_of_tie_odd hfy (hfe ▸ he), hfe]
    · have c2 : 1 / 2 < y - (⌊y⌋ : ℚ) := lt_of_lt_of_le c1 hfr
      rw [rhe_of_gt c1, rhe_of_gt c2, hfe]

/-- Positive-value binary32 rounding: scale into `[2^23, 2^24)`, round
half to even, scale back. -/
def roundPos (q : ℚ) : ℚ :=
  ((rhe (q * 2 ^ ((23 : ℤ) - Int.log 2 q)) : ℤ) : ℚ) *
    2 ^ (Int.log 2 q - (23 : ℤ))

/-- Binary32 round-to-nearest-even of a rational (zero and sign handled
separately; the magnitudes in play are all normal). -/
def roundF32 (q : ℚ) : ℚ :=
  if q = 0 then 0 else if q < 0 then -roundPos (-q) else roundPos q

/-- Characterization of the binary exponent. -/
theorem log2_eq {q : ℚ} {e : ℤ} (hq : 0 < q) (h1 : (2 : ℚ) ^ e ≤ q)
    (h2 : q < (2 : ℚ) ^ (e + 1)) : Int.log 2 q = e := by
  have hle : e ≤ Int.log 2 q := by
    calc e = Int.log 2 ((2 : ℚ) ^ e) := (Int.log_zpow (by norm_num) e).symm
      _ ≤ Int.log 2 q := Int.log_mono_right (by positivity) h1
  have hlt : Int.log 2 q < e + 1 := by
    by_contra hcon
    push_neg at hcon
    have h3 : (2 : ℚ) ^ (e + 1) ≤ (2 : ℚ) ^ (Int.log 2 q) :=
      zpow_le_zpow_right₀ one_le_two hcon
    have h4 : (2 : ℚ) ^ (Int.log 2 q) ≤ q :=
      Int.zpow_log_le_self (by norm_num) hq
    linarith
  omega

theorem roundPos_nonneg {q : ℚ} (hq : 0 < q) : 0 ≤ roundPos q := by
  unfold roundPos
  have hsc : 0 < q * 2 ^ ((23 : ℤ) - Int.log 2 q) := by positivity
  have hfl : (0 : ℤ) ≤ ⌊q * 2 ^ ((23 : ℤ) - Int.log 2 q)⌋ :=
    Int.floor_nonneg.mpr hsc.le
  have hr : (0 : ℤ) ≤ rhe (q * 2 ^ ((23 : ℤ) - Int.log 2 q)) :=
    le_trans hfl (rhe_ge_floor _)
  have : (0 : ℚ) ≤ ((rhe (q * 2 ^ ((23 : ℤ) - Int.log 2 q)) : ℤ) : ℚ) := by
    exact_mod_cast hr
  positivity

/-- The rounded value does not exceed the top of the next binade. -/
theorem roundPos_le_zpow {q : ℚ} (hq : 0 < q) :
    roundPos q ≤ 2 ^ (Int.log 2 q + 1) := by
  unfold roundPos
  set e := Int.log 2 q with he
  have h2 : q < (2 : ℚ) ^ (e + 1) := Int.lt_zpow_succ_log_self (by norm_num) q
  have hsc : q * 2 ^ ((23 : ℤ) - e) < 2 ^ (24 : ℤ) := by
    have hpow : (0 : ℚ) < 2 ^ ((23 : ℤ) - e) := by positivity
    calc q * 2 ^ ((23 : ℤ) - e) < 2 ^ (e + 1) * 2 ^ ((23 : ℤ) - e) := by
          exact mul_lt_mul_of_pos_right h2 hpow
      _ = 2 ^ (24 : ℤ) := by
          rw [← zpow_add₀ (by norm_num : (2 : ℚ) ≠ 0)]
          congr 1
          omega
  have hfl : ⌊q * 2 ^ ((23 : ℤ) - e)⌋ < 2 ^ (24 : ℕ) := by
    have := Int.floor_le (q * 2 ^ ((23 : ℤ) - e))
    have h24 : ((2 ^ (24 : ℕ) : ℤ) : ℚ) = 2 ^ (24 : ℤ) := by norm_num
    have : (⌊q * 2 ^ ((23 : ℤ) - e)⌋ : ℚ) < 2 ^ (24 : ℤ) := lt_of_le_of_lt this hsc
    exact_mod_cast h24 ▸ this
  have hr : rhe (q * 2 ^ ((23 : ℤ) - e)) ≤ 2 ^ (24 : ℕ) := by
    have := rhe_le_floor_add_one (q * 2 ^ ((23 : ℤ) - e))
    omega
  have hrq : ((rhe (q * 2 ^ ((23 : ℤ) - e)) : ℤ) : ℚ) ≤ 2 ^ (24 : ℤ) := by
    have h24 : ((2 ^ (24 : ℕ) : ℤ) : ℚ) = 2 ^ (24 : ℤ) := by norm_num
    exact h24 ▸ (by exact_mod_cast hr)
  calc ((rhe (q * 2 ^ ((23 : ℤ) - e)) : ℤ) : ℚ) * 2 ^ (e - (23 : ℤ))
      ≤ 2 ^ (24 : ℤ) * 2 ^ (e - (23 : ℤ)) := by
        exact mul_le_mul_of_nonneg_right hrq (by positivity)
    _ = 2 ^ (e + 1) := by
        rw [← zpow_add₀ (by norm_num : (2 : ℚ) ≠ 0)]
        congr 1
        omega

/-- The rounded value stays at or above the bottom of its binade. -/
theorem zpow_le_roundPos {q : ℚ} (hq : 0 < q) :
    2 ^ (Int.log 2 q) ≤ roundPos q := by
  unfold roundPos
  set e := Int.log 2 q with he
  have h1 : (2 : ℚ) ^ e ≤ q := Int.zpow_log_le_self (by norm_num) hq
  have hsc : (2 : ℚ) ^ (23 : ℤ) ≤ q * 2 ^ ((23 : ℤ) - e) := by
    have hpow : (0 : ℚ) < 2 ^ ((23 : ℤ) - e) := by positivity
    calc (2 : ℚ) ^ (23 : ℤ) = 2 ^ e * 2 ^ ((23 : ℤ) - e) := by
          rw [← zpow_add₀ (by norm_num : (2 : ℚ) ≠ 0)]
          congr 1
          omega
      _ ≤ q * 2 ^ ((23 : ℤ) - e) := by
          exact mul_le_mul_of_nonneg_right h1 hpow.le
  have hfl : (2 ^ (23 : ℕ) : ℤ) ≤ ⌊q * 2 ^ ((23 : ℤ) - e)⌋ := by
    apply Int.le_floor.mpr
    have h23 : (((2 : ℤ) ^ (23 : ℕ) : ℤ) : ℚ) = 2 ^ (23 : ℤ) := by norm_num
    rw [h23]
    exact hsc
  have hr : (2 ^ (23 : ℕ) : ℤ) ≤ rhe (q * 2 ^ ((23 : ℤ) - e)) :=
    le_trans hfl (rhe_ge_floor _)
  have hrq : (2 : ℚ) ^ (23 : ℤ) ≤ ((rhe (q * 2 ^ ((23 : ℤ) - e)) : ℤ) : ℚ) := by
    have h23 : (((2 : ℤ) ^ (23 : ℕ) : ℤ) : ℚ) = 2 ^ (23 : ℤ) := by norm_num
    exact h23 ▸ (by exact_mod_cast hr)
  calc (2 : ℚ) ^ e = 2 ^ (23 : ℤ) * 2 ^ (e - (23 : ℤ)) := by
        rw [← zpow_add₀ (by norm_num : (2 : ℚ) ≠ 0)]
        congr 1
        omega
    _ ≤ ((rhe (q * 2 ^ ((23 : ℤ) - e)) : ℤ) : ℚ) * 2 ^ (e - (23 : ℤ)) := by
        exact mul_le_mul_of_nonneg_right hrq (by positivity)

/-- Binary32 rounding of positive values is monotone. -/
theorem roundPos_mono {x y : ℚ} (hx : 0 < x) (hxy : x ≤ y) :
    roundPos x ≤ roundPos y := by
  have hy : 0 < y := lt_of_lt_of_le hx hxy
  rcases lt_or_eq_of_le
    (Int.log_mono_right hx hxy : Int.log 2 x ≤ Int.log 2 y) with hlog | hlog
  · have hstep : Int.log 2 x + 1 ≤ Int.log 2 y := by omega
    calc roundPos x ≤ 2 ^ (Int.log 2 x + 1) := roundPos_le_zpow hx
      _ ≤ 2 ^ (Int.log 2 y) :=
        zpow_le_zpow_right₀ (by norm_num : (1 : ℚ) ≤ 2) hstep
      _ ≤ roundPos y := zpow_le_roundPos hy
  · unfold roundPos
    rw [← hlog]
    have hsc : x * 2 ^ ((23 : ℤ) - Int.log 2 x) ≤
        y * 2 ^ ((23 : ℤ) - Int.log 2 x) := by
      exact mul_le_mul_of_nonneg_right hxy (by positivity)
    have hr := rhe_mono hsc
    have hrq : ((rhe (x * 2 ^ ((23 : ℤ) - Int.log 2 x)) : ℤ) : ℚ) ≤
        ((rhe (y * 2 ^ ((23 : ℤ) - Int.log 2 x)) : ℤ) : ℚ) := by
      exact_mod_cast hr
    exact mul_le_mul_of_nonneg_right hrq (by positivity)

theorem roundF32_nonneg {q : ℚ} (hq : 0 ≤ q) : 0 ≤ roundF32 q := by
  unfold roundF32
  rcases lt_or_eq_of_le hq with hpos | hzero
  · rw [if_neg (ne_of_gt hpos), if_neg (not_lt.mpr hq)]
    exact roundPos_nonneg hpos
  · rw [if_pos hzero.symm]

/-- Binary32 rounding is monotone on nonnegative values. -/
theorem roundF32_mono_nonneg {x y : ℚ} (hx : 0 ≤ x) (hxy : x ≤ y) :
    roundF32 x ≤ roundF32 y := by
  rcases lt_or_eq_of_le hx with hxpos | hxzero
  · have hy : 0 < y := lt_of_lt_of_le hxpos hxy
    unfold roundF32
    rw [if_neg (ne_of_gt hxpos), if_neg (not_lt.mpr hx),
      if_neg (ne_of_gt hy), if_neg (not_lt.mpr hy.le)]
    exact roundPos_mono hxpos hxy
  · rw [← hxzero]
    have h1 : roundF32 0 = 0 := by unfold roundF32; rw [if_pos rfl]
    rw [h1]
    exact roundF32_nonneg (hxzero ▸ hx.trans hxy)

theorem rhe_intCast (m : ℤ) : rhe (m : ℚ) = m := by
  have h : ((m : ℚ) - ⌊(m : ℚ)⌋ : ℚ) < 1 / 2 := by
    rw [Int.floor_intCast]
    norm_num
  rw [rhe_of_lt h, Int.floor_intCast]

/-- Positive naturals up to `2^23` are fixed points of the positive-value
rounding. -/
theorem roundPos_natCast (n : ℕ) (h1 : 1 ≤ n) (h23 : n ≤ 2 ^ 23) :
    roundPos (n : ℚ) = n := by
  have hq : (0 : ℚ) < n := by exact_mod_cast h1
  unfold roundPos
  set e := Int.log 2 (n : ℚ) with he
  have he0 : 0 ≤ e := by
    rw [he, Int.log_natCast]
    exact Int.ofNat_nonneg _
  have he23 : e ≤ 23 := by
    have hcast : (n : ℚ) ≤ (2 : ℚ) ^ (23 : ℤ) := by
      have : ((2 ^ 23 : ℕ) : ℚ) = (2 : ℚ) ^ (23 : ℤ) := by norm_num
      rw [← this]
      exact_mod_cast h23
    calc e ≤ Int.log 2 ((2 : ℚ) ^ (23 : ℤ)) := Int.log_mono_right hq hcast
      _ = 23 := Int.log_zpow (by norm_num) 23
  set k : ℕ := ((23 : ℤ) - e).toNat with hk
  have hke : (23 : ℤ) - e = (k : ℤ) := by omega
  have hsc : (n : ℚ) * 2 ^ ((23 : ℤ) - e) = ((n * 2 ^ k : ℕ) : ℚ) := by
    rw [hke]
    push_cast
    rw [zpow_natCast]
  rw [hsc]
  have hrhe : rhe ((n * 2 ^ k : ℕ) : ℚ) = ((n * 2 ^ k : ℕ) : ℤ) := by
    have : (((n * 2 ^ k : ℕ) : ℤ) : ℚ) = ((n * 2 ^ k : ℕ) : ℚ) := by
      push_cast
      ring
    rw [← this, rhe_intCast]
  rw [hrhe]
  have hek : e - (23 : ℤ) = -(k : ℤ) := by omega
  rw [hek, zpow_neg, zpow_natCast]
  push_cast
  have hpk : ((2 : ℚ) ^ k) ≠ 0 := by positivity
  field_simp

/-- Naturals up to `2^23` are exactly representable: binary32 rounding is
the identity on them. -/
theorem roundF32_natCast (n : ℕ) (h1 : 1 ≤ n) (h23 : n ≤ 2 ^ 23) :
    roundF32 (n : ℚ) = n := by
  have hq : (0 : ℚ) < n := by exact_mod_cast h1
  unfold roundF32
  rw [if_neg (ne_of_gt hq), if_neg (not_lt.mpr hq.le)]
  exact roundPos_natCast n h1 h23

/-- Powers of two are exactly representable: they are fixed points of the
positive-value rounding. -/
theorem roundPos_zpow (e : ℤ) : roundPos ((2 : ℚ) ^ e) = 2 ^ e := by
  have hlog : Int.log 2 ((2 : ℚ) ^ e) = e :=
    log2_eq (by positivity) le_rfl
      (zpow_lt_zpow_right₀ (by norm_num : (1 : ℚ) < 2) (by omega))
  unfold roundPos
  rw [hlog]
  have hsc : (2 : ℚ) ^ e * 2 ^ ((23 : ℤ) - e) = ((8388608 : ℤ) : ℚ) := by
    rw [← zpow_add₀ (by norm_num : (2 : ℚ) ≠ 0),
      show e + ((23 : ℤ) - e) = (23 : ℤ) by omega]
    norm_num
  rw [hsc, rhe_intCast,
    show ((8388608 : ℤ) : ℚ) = 2 ^ (23 : ℤ) by norm_num,
    ← zpow_add₀ (by norm_num : (2 : ℚ) ≠ 0),
    show (23 : ℤ) + (e - 23) = e by omega]

/-- Binary32 round-to-nearest-even including the subnormal range: a
magnitude below `2^-126` is rounded on the fixed-point grid of step
`2^-149` (the subnormal grid, whose bottom edge is gradual underflow to
zero); normal magnitudes round exactly as `roundF32`.  Overflow is not
modelled: no value in play approaches `2^128`. -/
def roundF32sub (q : ℚ) : ℚ :=
  if q = 0 then 0
  else if |q| < (2 : ℚ) ^ (-126 : ℤ) then
    ((rhe (q * 2 ^ (149 : ℤ)) : ℤ) : ℚ) * 2 ^ (-149 : ℤ)
  else if q < 0 then -roundPos (-q) else roundPos q

theorem roundF32sub_zero : roundF32sub 0 = 0 := by
  unfold roundF32sub
  rw [if_pos rfl]

/-- On positive naturals up to `2^23` the subnormal-aware rounding is the
identity as well. -/
theorem roundF32sub_natCast (n : ℕ) (h1 : 1 ≤ n) (h23 : n ≤ 2 ^ 23) :
    roundF32sub (n : ℚ) = n := by
  have hq : (0 : ℚ) < n := by exact_mod_cast h1
  have h1q : (1 : ℚ) ≤ n := by exact_mod_cast h1
  unfold roundF32sub
  rw [if_neg (ne_of_gt hq), if_neg, if_neg (not_lt.mpr hq.le)]
  · exact roundPos_natCast n h1 h23
  · rw [not_lt, abs_of_pos hq]
    calc (2 : ℚ) ^ (-126 : ℤ) ≤ 1 := by norm_num
      _ ≤ n := h1q

/-- Powers of two down to the bottom normal binade are fixed points of the
subnormal-aware rounding. -/
theorem roundF32sub_zpow (e : ℤ) (he : -126 ≤ e) :
    roundF32sub ((2 : ℚ) ^ e) = 2 ^ e := by
  have hpos : (0 : ℚ) < 2 ^ e := by positivity
  unfold roundF32sub
  rw [if_neg (ne_of_gt hpos), if_neg, if_neg (not_lt.mpr hpos.le)]
  · exact roundPos_zpow e
  · rw [not_lt, abs_of_pos hpos]
    exact zpow_le_zpow_right₀ one_le_two he

theorem roundF32sub_neg_zpow (e : ℤ) (he : -126 ≤ e) :
    roundF32sub (-(2 : ℚ) ^ e) = -(2 : ℚ) ^ e := by
  have hpos : (0 : ℚ) < 2 ^ e := by positivity
  unfold roundF32sub
  rw [if_neg (by intro h; linarith), if_neg, if_pos (by linarith)]
  · rw [neg_neg, roundPos_zpow e]
  · rw [not_lt, abs_neg, abs_of_pos hpos]
    exact zpow_le_zpow_right₀ one_le_two he

/-- The bottom of gradual underflow: `2^-150` is exactly half the smallest
subnormal `2^-149` and ties to even, i.e. rounds to zero. -/
theorem roundF32sub_half_ulp : roundF32sub ((2 : ℚ) ^ (-150 : ℤ)) = 0 := by
  have hpos : (0 : ℚ) < (2 : ℚ) ^ (-150 : ℤ) := by positivity
  unfold roundF32sub
  rw [if_neg (ne_of_gt hpos), if_pos]
  · rw [show (2 : ℚ) ^ (-150 : ℤ) * 2 ^ (149 : ℤ) = 1 / 2 by
      rw [← zpow_add₀ (by norm_num : (2 : ℚ) ≠ 0)]; norm_num]
    have hfl : ⌊(1 / 2 : ℚ)⌋ = 0 := by
      rw [Int.floor_eq_iff]
      constructor <;> norm_num
    rw [rhe_of_tie_even (by rw [hfl]; norm_num) (by rw [hfl]; decide), hfl]
    norm_num
  · rw [abs_of_pos hpos]
    norm_num

open Classical in
/-- Round half to even over the reals (needed to round values, such as
square roots, that need not be rational). -/
noncomputable def rheR (x : ℝ) : ℤ :=
  if x - ⌊x⌋ < 1 / 2 then ⌊x⌋
  else if 1 / 2 < x - ⌊x⌋ then ⌊x⌋ + 1
  else if ⌊x⌋ % 2 = 0 then ⌊x⌋ else ⌊x⌋ + 1

/-- Positive-value binary32 rounding over the reals. -/
noncomputable def roundPosR (x : ℝ) : ℝ :=
  ((rheR (x * 2 ^ ((23 : ℤ) - Int.log 2 x)) : ℤ) : ℝ) *
    2 ^ (Int.log 2 x - (23 : ℤ))

open Classical in
/-- Binary32 round-to-nearest-even over the reals, subnormal range
included: the real-valued twin of `roundF32sub`. -/
noncomputable def roundF32Rsub (x : ℝ) : ℝ :=
  if x = 0 then 0
  else if |x| < (2 : ℝ) ^ (-126 : ℤ) then
    ((rheR (x * 2 ^ (149 : ℤ)) : ℤ) : ℝ) * 2 ^ (-149 : ℤ)
  else if x < 0 then -roundPosR (-x) else roundPosR x

theorem roundF32Rsub_zero : roundF32Rsub 0 = 0 := by
  unfold roundF32Rsub
  rw [if_pos rfl]

/-- Binary32 multiplication of two `f32` values. -/
def mulF32 (x y : ℚ) : ℚ := roundF32sub (x * y)

/-- Binary32 addition. -/
def addF32 (x y : ℚ) : ℚ := roundF32sub (x + y)

/-- Binary32 subtraction. -/
def subF32 (x y : ℚ) : ℚ := roundF32sub (x - y)

/-- Binary32 division. -/
def divF32 (x y : ℚ) : ℚ := roundF32sub (x / y)

/-- Binary32 `Iterator::sum::<f32>()`: fold of binary32 addition starting
from `0.0`, in iteration order. -/
def sumF32 (l : List ℚ) : ℚ := l.foldl addF32 0

theorem addF32_zero_zero : addF32 0 0 = 0 := by
  unfold addF32
  rw [add_zero, roundF32sub_zero]

theorem foldl_addF32_zeros :
    ∀ (l : List ℚ), (∀ x ∈ l, x = 0) → l.foldl addF32 0 = 0 := by
  intro l
  induction l with
  | nil => intro _; rfl
  | cons x xs ih =>
    intro h
    rw [List.foldl_cons, h x (by simp), addF32_zero_zero]
    exact ih (fun y hy => h y (by simp [hy]))

/-- The binary32 sum of an all-zero list is exactly zero. -/
theorem sumF32_all_zero (l : List ℚ) (h : ∀ x ∈ l, x = 0) : sumF32 l = 0 :=
  foldl_addF32_zeros l h

/-! ## Cosine similarity (`src/src-tauri/src/agenda.rs`, `cosine_similarity`)

    pub fn cosine_similarity(a: &[f32], b: &[f32]) -> f32 {
        if a.len() != b.len() { return 0.0; }
        let dot_product: f32 = a.iter().zip(b).map(|(x, y)| x * y).sum();
        let norm_a: f32 = a.iter().map(|x| x * x).sum::<f32>().sqrt();
        let norm_b: f32 = b.iter().map(|x| x * x).sum::<f32>().sqrt();
        if norm_a == 0.0 || norm_b == 0.0 { return 0.0; }
        dot_product / (norm_a * norm_b)
    }

The `f32` inputs are modelled as exact rationals and the square root forces
the result into `ℝ`. -/

/-- Sum of the pairwise products (the Rust `zip`/`map`/`sum` chain). -/
def dotProduct (a b : List ℚ) : ℚ := (List.zipWith (fun x y => x * y) a b).sum

/-- Sum of squares of a vector (the quantity whose square root is the norm). -/
def normSq (a : List ℚ) : ℚ := (a.map fun x => x * x).sum

open Classical in
/-- Exact-arithmetic idealization of `cosine_similarity` from `agenda.rs`:
zero on length mismatch or a zero norm, otherwise `dot / (|a| * |b|)`, with
every `f32` operation replaced by the exact one.  The faithful binary32
model of the same lines is `cosine_similarity_f32` below; this idealization
is what the similarity gate's comparison is reasoned against (`cosLtQ_iff`)
and what the identical-vectors clause of C5 is exactly true of. -/
noncomputable def cosine_similarity (a b : List ℚ) : ℝ :=
  if a.length ≠ b.length then 0
  else
    let norm_a : ℝ := Real.sqrt ((normSq a : ℚ) : ℝ)
    let norm_b : ℝ := Real.sqrt ((normSq b : ℚ) : ℝ)
    if norm_a = 0 ∨ norm_b = 0 then 0
    else ((dotProduct a b : ℚ) : ℝ) / (norm_a * norm_b)

theorem normSq_nonneg (a : List ℚ) : 0 ≤ normSq a :=
  List.sum_nonneg (by intro x hx; obtain ⟨y, _, rfl⟩ := List.mem_map.mp hx
                      exact mul_self_nonneg y)

theorem normSq_pos_of_ne_zero (a : List ℚ) (h : ∃ x ∈ a, x ≠ 0) :
    0 < normSq a := by
  obtain ⟨x, hmem, hx⟩ := h
  have hsq : x * x ∈ a.map fun y => y * y := List.mem_map_of_mem _ hmem
  have hle : x * x ≤ normSq a := by
    apply List.single_le_sum _ _ hsq
    intro y hy
    obtain ⟨z, _, rfl⟩ := List.mem_map.mp hy
    exact mul_self_nonneg z
  have : 0 < x * x := mul_self_pos.mpr hx
  linarith

theorem dotProduct_self (a : List ℚ) : dotProduct a a = normSq a := by
  unfold dotProduct normSq
  rw [List.zipWith_same]

/-- The dot-product line of `cosine_similarity`, with every multiply and
every running add rounded to binary32
(`a.iter().zip(b).map(|(x, y)| x * y).sum()` over `f32`). -/
def dotF32 (a b : List ℚ) : ℚ := sumF32 (List.zipWith mulF32 a b)

/-- The sum of squares inside the norm lines, every square and every
running add rounded to binary32. -/
def sumSqF32 (a : List ℚ) : ℚ := sumF32 (a.map (fun x => mulF32 x x))

/-- Binary32 square root: IEEE-754 `sqrt` is correctly rounded, so it is
the binary32 rounding of the exact real square root. -/
noncomputable def sqrtF32 (q : ℚ) : ℝ := roundF32Rsub (Real.sqrt (q : ℝ))

theorem sqrtF32_zero : sqrtF32 0 = 0 := by
  unfold sqrtF32
  rw [show ((0 : ℚ) : ℝ) = 0 by norm_num, Real.sqrt_zero, roundF32Rsub_zero]

open Classical in
/-- Embedding of `cosine_similarity` from `agenda.rs` with every `f32` operation
rounded to binary32 — the faithful model (`cosine_similarity` above is the
exact-arithmetic idealization of the same lines). -/
noncomputable def cosine_similarity_f32 (a b : List ℚ) : ℝ :=
  if a.length ≠ b.length then 0
  else if sqrtF32 (sumSqF32 a) = 0 ∨ sqrtF32 (sumSqF32 b) = 0 then 0
  else roundF32Rsub (((dotF32 a b : ℚ) : ℝ) /
    roundF32Rsub (sqrtF32 (sumSqF32 a) * sqrtF32 (sumSqF32 b)))

/-- C5 (amended): the binary32 `cosine_similarity` returns exactly `0.0`
for mismatched lengths and whenever either computed norm is zero; for an
identical pair with a nonzero entry the exact-arithmetic value of the
formula is exactly `1.0`, but the binary32 evaluation need not attain it —
see `C5_counterexample`, where underflow of the squares drives a non-zero
vector's computed norm to zero and the call returns `0.0`. -/
theorem C5_cosine_similarity_spec (a b u v w : List ℚ)
    (hab : a.length ≠ b.length)
    (huv : sqrtF32 (sumSqF32 u) = 0 ∨ sqrtF32 (sumSqF32 v) = 0)
    (hw : ∃ x ∈ w, x ≠ 0) :
    cosine_similarity_f32 a b = 0 ∧ cosine_similarity_f32 u v = 0 ∧
      cosine_similarity w w = 1 := by
  refine ⟨?_, ?_, ?_⟩
  · unfold cosine_similarity_f32
    rw [if_pos hab]
  · unfold cosine_similarity_f32
    by_cases hlen : u.length ≠ v.length
    · rw [if_pos hlen]
    · rw [if_neg hlen, if_pos huv]
  · have hpos : 0 < normSq w := normSq_pos_of_ne_zero w hw
    have hposR : (0 : ℝ) < ((normSq w : ℚ) : ℝ) := by exact_mod_cast hpos
    have hsqrt_ne : Real.sqrt ((normSq w : ℚ) : ℝ) ≠ 0 :=
      ne_of_gt (Real.sqrt_pos.mpr hposR)
    unfold cosine_similarity
    rw [if_neg (by simp), if_neg (by push_neg; exact ⟨hsqrt_ne, hsqrt_ne⟩)]
    rw [dotProduct_self, Real.mul_self_sqrt (le_of_lt hposR)]
    exact div_self (ne_of_gt hposR)

/-- Witness for C5: mismatched `[1]`/`[]`, the zero vector `[0]` against
itself (its computed norm is `sqrt(0.0) = 0.0`), and the identical nonzero
vector `[1]` for the exact-arithmetic clause. -/
theorem C5_cosine_similarity_spec_witness :
    (([1] : List ℚ).length ≠ ([] : List ℚ).length) ∧
    (sqrtF32 (sumSqF32 [(0 : ℚ)]) = 0 ∨ sqrtF32 (sumSqF32 [(0 : ℚ)]) = 0) ∧
    (∃ x ∈ ([1] : List ℚ), x ≠ 0) ∧
    (cosine_similarity_f32 [1] [] = 0 ∧
      cosine_similarity_f32 [0] [0] = 0 ∧
      cosine_similarity [1] [1] = 1) := by
  have hm : mulF32 0 0 = 0 := by
    unfold mulF32
    rw [mul_zero, roundF32sub_zero]
  have hz : sumSqF32 [(0 : ℚ)] = 0 := by
    unfold sumSqF32 sumF32
    rw [List.map_cons, List.map_nil, hm, List.foldl_cons, List.foldl_nil,
      addF32_zero_zero]
  have hn : sqrtF32 (sumSqF32 [(0 : ℚ)]) = 0 := by
    rw [hz]; exact sqrtF32_zero
  exact ⟨by decide, Or.inl hn, by decide,
    C5_cosine_similarity_spec [1] [] [0] [0] [1] (by decide) (Or.inl hn)
      (by decide)⟩

/-- Counterexample to C5 as stated: `[2^-75]` is a non-zero vector, but in
binary32 its squared entry `2^-150` underflows (it is exactly half the
smallest subnormal `2^-149` and ties to even, i.e. to zero), the computed
norm is `sqrt(0.0) = 0.0`, and `cosine_similarity` returns `0.0`, not
`1.0`, on this identical non-zero pair. -/
theorem C5_counterexample :
    ((2 : ℚ) ^ (-75 : ℤ) ≠ 0) ∧
    mulF32 ((2 : ℚ) ^ (-75 : ℤ)) ((2 : ℚ) ^ (-75 : ℤ)) = 0 ∧
    cosine_similarity_f32 [(2 : ℚ) ^ (-75 : ℤ)] [(2 : ℚ) ^ (-75 : ℤ)] = 0 ∧
    ((0 : ℝ) ≠ 1) := by
  have hv : (0 : ℚ) < (2 : ℚ) ^ (-75 : ℤ) := by positivity
  have hmul : mulF32 ((2 : ℚ) ^ (-75 : ℤ)) ((2 : ℚ) ^ (-75 : ℤ)) = 0 := by
    unfold mulF32
    rw [show (2 : ℚ) ^ (-75 : ℤ) * (2 : ℚ) ^ (-75 : ℤ) = 2 ^ (-150 : ℤ) by
        rw [← zpow_add₀ (by norm_num : (2 : ℚ) ≠ 0)]
        norm_num,
      roundF32sub_half_ulp]
  have hz : sumSqF32 [(2 : ℚ) ^ (-75 : ℤ)] = 0 := by
    unfold sumSqF32 sumF32
    rw [List.map_cons, List.map_nil, hmul, List.foldl_cons, List.foldl_nil,
      addF32_zero_zero]
  refine ⟨ne_of_gt hv, hmul, ?_, by norm_num⟩
  unfold cosine_similarity_f32
  rw [if_neg (by simp), if_pos (Or.inl (by rw [hz]; exact sqrtF32_zero))]

/-- Computable exact version of the comparison
`cosine_similarity a b < t` used by the similarity gate (the gate is the
only consumer of the similarity value in `score_agenda_items`).  The
square root is eliminated by sign analysis and squaring;
`cosLtQ_iff` proves this agrees with the `ℝ`-valued definition. -/
def cosLtQ (a b : List ℚ) (t : ℚ) : Bool :=
  if a.length ≠ b.length then decide (0 < t)
  else if normSq a = 0 ∨ normSq b = 0 then decide (0 < t)
  else
    let d := dotProduct a b
    if 0 ≤ d then decide (0 < t ∧ d ^ 2 < t ^ 2 * (normSq a * normSq b))
    else decide (0 ≤ t ∨ t ^ 2 * (normSq a * normSq b) < d ^ 2)

theorem lt_mul_sqrt_iff_of_nonneg {d t S : ℝ} (hd : 0 ≤ d) (hS : 0 < S) :
    d < t * Real.sqrt S ↔ 0 < t ∧ d ^ 2 < t ^ 2 * S := by
  have hs : 0 < Real.sqrt S := Real.sqrt_pos.mpr hS
  have hsq : Real.sqrt S ^ 2 = S := Real.sq_sqrt hS.le
  constructor
  · intro h
    have ht : 0 < t := by
      by_contra hle
      push_neg at hle
      have : t * Real.sqrt S ≤ 0 := mul_nonpos_of_nonpos_of_nonneg hle hs.le
      linarith
    refine ⟨ht, ?_⟩
    have h2 : d ^ 2 < (t * Real.sqrt S) ^ 2 := pow_lt_pow_left₀ h hd two_ne_zero
    calc d ^ 2 < (t * Real.sqrt S) ^ 2 := h2
      _ = t ^ 2 * S := by rw [mul_pow, hsq]
  · rintro ⟨ht, hlt⟩
    have hts : 0 < t * Real.sqrt S := mul_pos ht hs
    have h2 : d ^ 2 < (t * Real.sqrt S) ^ 2 := by
      rw [mul_pow, hsq]; exact hlt
    exact lt_of_pow_lt_pow_left₀ 2 hts.le h2

theorem lt_mul_sqrt_iff_of_neg {d t S : ℝ} (hd : d < 0) (hS : 0 < S) :
    d < t * Real.sqrt S ↔ 0 ≤ t ∨ t ^ 2 * S < d ^ 2 := by
  have hs : 0 < Real.sqrt S := Real.sqrt_pos.mpr hS
  have hsq : Real.sqrt S ^ 2 = S := Real.sq_sqrt hS.le
  constructor
  · intro h
    by_cases ht : 0 ≤ t
    · exact Or.inl ht
    · push_neg at ht
      refine Or.inr ?_
      have hneg : 0 ≤ -(t * Real.sqrt S) := by
        have : t * Real.sqrt S < 0 := mul_neg_of_neg_of_pos ht hs
        linarith
      have h2 : (-(t * Real.sqrt S)) ^ 2 < (-d) ^ 2 :=
        pow_lt_pow_left₀ (by linarith) hneg two_ne_zero
      calc t ^ 2 * S = (-(t * Real.sqrt S)) ^ 2 := by
            rw [neg_pow, mul_pow, hsq]; ring
        _ < (-d) ^ 2 := h2
        _ = d ^ 2 := by ring
  · rintro (ht | hlt)
    · have : 0 ≤ t * Real.sqrt S := mul_nonneg ht hs.le
      linarith
    · by_cases ht : 0 ≤ t
      · have : 0 ≤ t * Real.sqrt S := mul_nonneg ht hs.le
        linarith
      · push_neg at ht
        have hneg : 0 ≤ -(t * Real.sqrt S) := by
          have : t * Real.sqrt S < 0 := mul_neg_of_neg_of_pos ht hs
          linarith
        have h2 : (-(t * Real.sqrt S)) ^ 2 < (-d) ^ 2 := by
          calc (-(t * Real.sqrt S)) ^ 2 = t ^ 2 * S := by
                rw [neg_pow, mul_pow, hsq]; ring
            _ < d ^ 2 := hlt
            _ = (-d) ^ 2 := by ring
        have := lt_of_pow_lt_pow_left₀ 2 (by linarith : (0:ℝ) ≤ -d) h2
        linarith

/-- Value of `cosine_similarity` in the nondegenerate case. -/
theorem cosine_similarity_of_pos {a b : List ℚ}
    (hlen : ¬a.length ≠ b.length) (ha : 0 < normSq a) (hb : 0 < normSq b) :
    cosine_similarity a b =
      ((dotProduct a b : ℚ) : ℝ) /
        (Real.sqrt ((normSq a : ℚ) : ℝ) * Real.sqrt ((normSq b : ℚ) : ℝ)) := by
  have haR : (0 : ℝ) < ((normSq a : ℚ) : ℝ) := by exact_mod_cast ha
  have hbR : (0 : ℝ) < ((normSq b : ℚ) : ℝ) := by exact_mod_cast hb
  unfold cosine_similarity
  rw [if_neg hlen, if_neg]
  push_neg
  exact ⟨ne_of_gt (Real.sqrt_pos.mpr haR), ne_of_gt (Real.sqrt_pos.mpr hbR)⟩

/-- Value of `cosine_similarity` in the degenerate zero-norm case. -/
theorem cosine_similarity_of_zero {a b : List ℚ}
    (hz : normSq a = 0 ∨ normSq b = 0) : cosine_similarity a b = 0 := by
  unfold cosine_similarity
  by_cases hlen : a.length ≠ b.length
  · rw [if_pos hlen]
  · rw [if_neg hlen, if_pos]
    rcases hz with h | h
    · left; rw [h]; push_cast; exact Real.sqrt_zero
    · right; rw [h]; push_cast; exact Real.sqrt_zero

/-- The computable gate comparison agrees with the `ℝ`-valued
`cosine_similarity a b < t`. -/
theorem cosLtQ_iff (a b : List ℚ) (t : ℚ) :
    cosLtQ a b t = true ↔ cosine_similarity a b < (t : ℝ) := by
  unfold cosLtQ
  by_cases hlen : a.length ≠ b.length
  · rw [if_pos hlen, decide_eq_true_iff]
    have : cosine_similarity a b = 0 := by
      unfold cosine_similarity; rw [if_pos hlen]
    rw [this]
    exact_mod_cast Iff.rfl
  · rw [if_neg hlen]
    by_cases hz : normSq a = 0 ∨ normSq b = 0
    · rw [if_pos hz, decide_eq_true_iff, cosine_similarity_of_zero hz]
      exact_mod_cast Iff.rfl
    · rw [if_neg hz]
      push_neg at hz
      have ha : 0 < normSq a := lt_of_le_of_ne (normSq_nonneg a) (Ne.symm hz.1)
      have hb : 0 < normSq b := lt_of_le_of_ne (normSq_nonneg b) (Ne.symm hz.2)
      have haR : (0 : ℝ) < ((normSq a : ℚ) : ℝ) := by exact_mod_cast ha
      have hbR : (0 : ℝ) < ((normSq b : ℚ) : ℝ) := by exact_mod_cast hb
      have hSR : (0 : ℝ) < ((normSq a : ℚ) : ℝ) * ((normSq b : ℚ) : ℝ) :=
        mul_pos haR hbR
      have hsqrt_mul : Real.sqrt ((normSq a : ℚ) : ℝ) *
          Real.sqrt ((normSq b : ℚ) : ℝ) =
          Real.sqrt (((normSq a : ℚ) : ℝ) * ((normSq b : ℚ) : ℝ)) :=
        (Real.sqrt_mul haR.le _).symm
      have hs : 0 < Real.sqrt (((normSq a : ℚ) : ℝ) * ((normSq b : ℚ) : ℝ)) :=
        Real.sqrt_pos.mpr hSR
      rw [cosine_similarity_of_pos hlen ha hb, hsqrt_mul, div_lt_iff₀ hs]
      by_cases hd : 0 ≤ dotProduct a b
      · rw [if_pos hd, decide_eq_true_iff]
        have hdR : (0 : ℝ) ≤ ((dotProduct a b : ℚ) : ℝ) := by exact_mod_cast hd
        rw [lt_mul_sqrt_iff_of_nonneg hdR hSR]
        constructor
        · rintro ⟨h1, h2⟩
          exact ⟨by exact_mod_cast h1, by exact_mod_cast h2⟩
        · rintro ⟨h1, h2⟩
          exact ⟨by exact_mod_cast h1, by exact_mod_cast h2⟩
      · rw [if_neg hd, decide_eq_true_iff]
        push_neg at hd
        have hdR : ((dotProduct a b : ℚ) : ℝ) < 0 := by exact_mod_cast hd
        rw [lt_mul_sqrt_iff_of_neg hdR hSR]
        constructor
        · rintro (h | h)
          · exact Or.inl (by exact_mod_cast h)
          · exact Or.inr (by exact_mod_cast h)
        · rintro (h | h)
          · exact Or.inl (by exact_mod_cast h)
          · exact Or.inr (by exact_mod_cast h)

/-! ## Agenda scoring engine (`src/src-tauri/src/agenda.rs`, `score_agenda_items`)

The HTTP transport and the serde JSON parser are external collaborators
(spec §6) and are modelled as oracles:

* `gen : GenRequest → Option String` — the composite of
  `client.post(url).json(&req).send()` and `resp.json::<OllamaResponse>()`;
  `some raw` means both succeeded and the body's `response` field is `raw`
  (a reqwest transport error or a body that does not parse as
  `OllamaResponse` — including any non-success HTTP error body — is `none`);
* `serde : String → Option ScoreResponse` — `serde_json::from_str` on the
  brace-extracted substring;
* `embed : String → String → Option (List ℚ)` —
  `get_embedding(model, text).ok()`.

The brace extraction itself (`find('{')`, `rfind('}')`, the inclusive byte
slice) is repository code and is embedded exactly, including the Rust
panic of `&s[start..=end]` when `start > end + 1` (both braces are
single-byte characters, so character positions and byte positions order
identically and the model on `List Char` is exact). -/

/-- Rendering of a score with two decimal digits (Rust `{:.2}`). -/
def fmt2 (q : ℚ) : String :=
  let cents := rhe (q * 100)
  let sign := if cents < 0 then "-" else ""
  let m := cents.natAbs
  let r := m % 100
  sign ++ toString (m / 100) ++ "." ++
    (if r < 10 then "0" ++ toString r else toString r)

/-- Rendering of a percentage with no decimal digits: the source first
multiplies `score * 100.0` in binary32 (`100.0` and every score in play are
exact binary32 values, but the product rounds), then `{:.0}` renders the
product's exact value to an integer half-to-even. -/
def pct_str (s : ℚ) : String := toString (rhe (roundF32sub (s * 100)))

/-- Embedding of `AgendaItem` from `agenda.rs` (the `#[serde(skip)]` embedding field is
carried as data). -/
structure AgendaItem where
  id : String
  text : String
  status : String
  answer : Option String
  score : ℚ
  evidence : List String
  embedding : Option (List ℚ)
deriving DecidableEq

/-- Embedding of `ScoreResponse` from `agenda.rs` (the parsed `match`/`score`/
`new_evidence` record; the Rust field `is_match` is serde-renamed from
`match`). -/
structure ScoreResponse where
  is_match : Bool
  score : ℚ
  new_evidence : Option String
deriving DecidableEq

/-- Embedding of `OllamaRequest` from `agenda.rs`: the request body the scorer posts. -/
structure GenRequest where
  model : String
  prompt : String
  stream : Bool
deriving DecidableEq

/-- Left brace character (written by code point to keep braces out of
source literals). -/
def lbrace : Char := Char.ofNat 123

/-- Right brace character. -/
def rbrace : Char := Char.ofNat 125

/-- Outcome of the brace-extraction step on the raw model output. -/
inductive Extract where
  | noBraces
  | panicked
  | ok (s : String)
deriving DecidableEq

/-- The brace extraction of `score_agenda_items`:

    let json_str = ollama_resp.response.trim();
    if let Some(start) = json_str.find(left brace) {
        if let Some(end) = json_str.rfind(rbrace) {
            let clean_json = &json_str[start..=end];

For `start ≤ end` the slice is the characters from the first left brace
through the last right brace; for `start = end + 1` it is the empty string;
for `start > end + 1` the Rust range slice panics.  `trimChars` models
Rust `str::trim` (whitespace stripped from both ends; trimming never moves
the braces relative to each other). -/
def trimChars (l : List Char) : List Char :=
  ((l.dropWhile Char.isWhitespace).reverse.dropWhile Char.isWhitespace).reverse

/-- See the section comment: the brace extraction of `score_agenda_items`,
with `Extract.panicked` marking the input shapes on which the Rust
inclusive slice `&json_str[start..=end]` panics. -/
def extract_braces (raw : String) : Extract :=
  let l := trimChars raw.toList
  match l.findIdx? (fun c => c = lbrace) with
  | none => .noBraces
  | some i =>
    match l.reverse.findIdx? (fun c => c = rbrace) with
    | none => .noBraces
    | some k =>
      let j := l.length - 1 - k
      if i ≤ j then .ok (String.mk ((l.drop i).take (j - i + 1)))
      else if i = j + 1 then .ok ""
      else .panicked

/-- The `evidence_text` binding: `"None"` for an empty evidence list,
otherwise the list joined with `"\n- "`. -/
def evidence_text (evidence : List String) : String :=
  if evidence = [] then "None" else String.intercalate "\n- " evidence

/-- The exact prompt `score_agenda_items` builds for one item (the Rust
`format!` literal with its embedded indentation; `\x7b`/`\x7d` are the
literal braces of the JSON example). -/
def mk_prompt (item : AgendaItem) (text : String) : String :=
  "You are a meeting assistant tracking a goal.\n            Goal: \"" ++
  item.text ++
  "\"\n            \n            Current Completion Score: " ++
  fmt2 item.score ++
  " (0.0 to 1.0)\n            \n            Previous Evidence:\n            - " ++
  evidence_text item.evidence ++
  "\n            \n            New Transcript Segment:\n            \"" ++
  text ++
  "\"\n            \n            Task:\n            1. Analyze if the New Transcript Segment MATCHES the Goal.\n            2. If it matches, does it provide NEW progress or information?\n            3. Estimate the NEW TOTAL completion score (0.0 to 1.0) based on Previous Evidence + New Segment.\n            4. Provide a one-sentence summary of the new evidence found (if any).\n            \n            Return JSON ONLY:\n            \x7b\n                \"match\": true/false,\n                \"score\": 0.5,\n                \"new_evidence\": \"Discussed budget cap.\"\n            \x7d"

/-- The similarity prefilter: skip the item when both the tick's text
embedding and the item's cached embedding are present and the cosine
similarity is below the threshold (`if let (Some(a), Some(b)) = …`). -/
def sim_gate_skips (text_embedding item_embedding : Option (List ℚ))
    (similarity_threshold : ℚ) : Bool :=
  match text_embedding, item_embedding with
  | some te, some ie => cosLtQ te ie similarity_threshold
  | _, _ => false

/-- The evidence-append of the matched branch: push the model's evidence
sentence when present and non-empty. -/
def push_new_evidence (evidence : List String) (new_evidence : Option String) :
    List String :=
  match new_evidence with
  | some ev => if ev ≠ "" then evidence ++ [ev] else evidence
  | none => evidence

/-- Result of processing a single item in the tick: an (possibly updated)
item together with the updates flag, or the Rust panic raised by the
brace slice. -/
inductive ItemOutcome where
  | ok (item : AgendaItem) (updated : Bool)
  | panicked
deriving DecidableEq

/-- The loop body of `score_agenda_items` for one `item`, lines 101–193 of
`agenda.rs`: skip answered-and-cleared items, apply the similarity gate,
post the prompt, extract and parse the reply, and on a reported match
append non-empty evidence, overwrite the score and drive the status. -/
def process_item (gen : GenRequest → Option String)
    (serde : String → Option ScoreResponse) (model : String) (text : String)
    (text_embedding : Option (List ℚ)) (similarity_threshold : ℚ)
    (answered_threshold : ℚ) (item : AgendaItem) : ItemOutcome :=
  if item.status = "answered" ∧ answered_threshold ≤ item.score then
    .ok item false
  else if sim_gate_skips text_embedding item.embedding similarity_threshold then
    .ok item false
  else
    match gen ⟨model, mk_prompt item text, false⟩ with
    | none => .ok item false
    | some raw =>
      match extract_braces raw with
      | .noBraces => .ok item false
      | .panicked => .panicked
      | .ok clean_json =>
        match serde clean_json with
        | none => .ok item false
        | some scored =>
          if scored.is_match then
            let evidence2 := push_new_evidence item.evidence scored.new_evidence
            if (1 : ℚ) ≤ scored.score then
              .ok { item with
                      evidence := evidence2
                      score := scored.score
                      status := "answered"
                      answer := some "Completed" } true
            else if 0 < scored.score then
              .ok { item with
                      evidence := evidence2
                      score := scored.score
                      status := "captured"
                      answer := some ("In Progress (" ++ pct_str scored.score
                        ++ "%)") } true
            else
              .ok { item with
                      evidence := evidence2
                      score := scored.score } true
          else .ok item false

/-- Result of a whole scoring tick: the item list and the collected update
ids, flagged when the tick was cut short by the brace-slice panic (the
remaining items are then untouched, as Rust unwinding leaves them). -/
inductive TickResult where
  | done (items : List AgendaItem) (updates : List String)
  | panicStop (items : List AgendaItem) (updates : List String)
deriving DecidableEq

/-- Sequential processing of the item slice, accumulating updated ids in
order. -/
def score_loop (f : AgendaItem → ItemOutcome) :
    List AgendaItem → TickResult
  | [] => .done [] []
  | item :: rest =>
    match f item with
    | .panicked => .panicStop (item :: rest) []
    | .ok item2 updated =>
      match score_loop f rest with
      | .done items us =>
        .done (item2 :: items) (if updated then item2.id :: us else us)
      | .panicStop items us =>
        .panicStop (item2 :: items) (if updated then item2.id :: us else us)

/-- Embedding of `score_agenda_items` from `agenda.rs`: compute the tick's text
embedding once (only when an embedding model is configured), then process
every item in order.  `base_url` only selects the HTTP endpoints and is
absorbed into the oracles. -/
def score_agenda_items (gen : GenRequest → Option String)
    (serde : String → Option ScoreResponse)
    (embed : String → String → Option (List ℚ)) (model : String)
    (text : String) (items : List AgendaItem)
    (embedding_model : Option String) (similarity_threshold : ℚ)
    (answered_threshold : ℚ) : TickResult :=
  let text_embedding :=
    match embedding_model with
    | some emb_model => embed emb_model text
    | none => none
  score_loop (process_item gen serde model text text_embedding
    similarity_threshold answered_threshold) items

/-- The item list carried by a tick result. -/
def TickResult.items : TickResult → List AgendaItem
  | .done items _ => items
  | .panicStop items _ => items

/-- The skip test at the top of the item loop
(`item.status == "answered" && item.score >= answered_threshold`) returns
the item untouched without consulting any oracle. -/
theorem process_item_skip (gen : GenRequest → Option String)
    (serde : String → Option ScoreResponse) (model text : String)
    (text_embedding : Option (List ℚ)) (similarity_threshold : ℚ)
    (answered_threshold : ℚ) (item : AgendaItem)
    (hstatus : item.status = "answered")
    (hscore : answered_threshold ≤ item.score) :
    process_item gen serde model text text_embedding similarity_threshold
      answered_threshold item = ItemOutcome.ok item false := by
  unfold process_item
  rw [if_pos ⟨hstatus, hscore⟩]

/-- Positional preservation: an item on which the loop body is a no-op
reappears unchanged at its position in the tick result, whether or not the
tick was cut short by a panic further along. -/
theorem score_loop_get?_of_skip (f : AgendaItem → ItemOutcome) :
    ∀ (items : List AgendaItem) (i : ℕ) (item : AgendaItem),
      items.get? i = some item → f item = ItemOutcome.ok item false →
      (score_loop f items).items.get? i = some item := by
  intro items
  induction items with
  | nil => intro i item hi _; simp at hi
  | cons it rest ih =>
    intro i item hi hf
    cases i with
    | zero =>
      simp only [List.get?_cons_zero, Option.some.injEq] at hi
      subst hi
      unfold score_loop
      rw [hf]
      cases hrec : score_loop f rest with
      | done items2 us => simp [TickResult.items]
      | panicStop items2 us => simp [TickResult.items]
    | succ j =>
      simp only [List.get?_cons_succ] at hi
      unfold score_loop
      cases hft : f it with
      | panicked =>
        simp only [TickResult.items, List.get?_cons_succ]
        exact hi
      | ok it2 upd =>
        have hrec := ih j item hi hf
        cases hloop : score_loop f rest with
        | done items2 us =>
          rw [hloop] at hrec
          simpa [TickResult.items] using hrec
        | panicStop items2 us =>
          rw [hloop] at hrec
          simpa [TickResult.items] using hrec

/-- C1 (amended): `score_agenda_items` excludes an item from the tick —
before the similarity gate and before any model call — exactly when the
item's status field reads `"answered"` AND its score has reached
`answered_threshold`; the skipped item reappears unchanged at its
position.  (The original claim's "regardless of status" fails: see
`C1_counterexample`.) -/
theorem C1_answered_items_excluded (gen : GenRequest → Option String)
    (serde : String → Option ScoreResponse)
    (embed : String → String → Option (List ℚ)) (model text : String)
    (items : List AgendaItem) (embedding_model : Option String)
    (similarity_threshold answered_threshold : ℚ)
    (text_embedding : Option (List ℚ)) (i : ℕ) (item : AgendaItem)
    (hi : items.get? i = some item) (hstatus : item.status = "answered")
    (hscore : answered_threshold ≤ item.score) :
    process_item gen serde model text text_embedding similarity_threshold
        answered_threshold item = ItemOutcome.ok item false ∧
    (score_agenda_items gen serde embed model text items embedding_model
        similarity_threshold answered_threshold).items.get? i = some item := by
  refine ⟨process_item_skip _ _ _ _ _ _ _ _ hstatus hscore, ?_⟩
  unfold score_agenda_items
  exact score_loop_get?_of_skip _ items i item hi
    (process_item_skip _ _ _ _ _ _ _ _ hstatus hscore)

/-- Witness for C1 at a concrete answered item with score `1 ≥ 0.95`. -/
theorem C1_answered_items_excluded_witness :
    (([⟨"g", "q", "answered", some "Completed", 1, [], none⟩] :
        List AgendaItem).get? 0 =
      some ⟨"g", "q", "answered", some "Completed", 1, [], none⟩) ∧
    ((⟨"g", "q", "answered", some "Completed", 1, [], none⟩ :
        AgendaItem).status = "answered") ∧
    ((95 / 100 : ℚ) ≤
      (⟨"g", "q", "answered", some "Completed", 1, [], none⟩ :
        AgendaItem).score) ∧
    (process_item (fun _ => none) (fun _ => none) "m" "t" none (35 / 100)
        (95 / 100) ⟨"g", "q", "answered", some "Completed", 1, [], none⟩ =
      ItemOutcome.ok ⟨"g", "q", "answered", some "Completed", 1, [], none⟩
        false ∧
    (score_agenda_items (fun _ => none) (fun _ => none) (fun _ _ => none)
        "m" "t" [⟨"g", "q", "answered", some "Completed", 1, [], none⟩]
        none (35 / 100) (95 / 100)).items.get? 0 =
      some ⟨"g", "q", "answered", some "Completed", 1, [], none⟩) :=
  ⟨rfl, rfl, by norm_num,
    C1_answered_items_excluded (fun _ => none) (fun _ => none)
      (fun _ _ => none) "m" "t"
      [⟨"g", "q", "answered", some "Completed", 1, [], none⟩] none
      (35 / 100) (95 / 100) none 0
      ⟨"g", "q", "answered", some "Completed", 1, [], none⟩ rfl rfl
      (by norm_num)⟩
/-- Characterization of the matched-reply branch of the item loop: when the
item is not skipped, not filtered by the similarity gate, and the oracles
deliver a parsed record with `match: true`, the item's score is overwritten
with the model total, non-empty evidence is appended, and status/answer are
driven by the new score exactly as in `agenda.rs` lines 166–187. -/
theorem process_item_matched (gen : GenRequest → Option String)
    (serde : String → Option ScoreResponse) (model text : String)
    (text_embedding : Option (List ℚ))
    (similarity_threshold answered_threshold : ℚ) (item : AgendaItem)
    (raw cleaned : String) (s : ℚ) (ev : Option String)
    (hskip : ¬(item.status = "answered" ∧ answered_threshold ≤ item.score))
    (hgate : sim_gate_skips text_embedding item.embedding
      similarity_threshold = false)
    (hgen : gen ⟨model, mk_prompt item text, false⟩ = some raw)
    (hex : extract_braces raw = Extract.ok cleaned)
    (hserde : serde cleaned = some ⟨true, s, ev⟩) :
    process_item gen serde model text text_embedding similarity_threshold
        answered_threshold item =
      ItemOutcome.ok
        { item with
            evidence := push_new_evidence item.evidence ev
            score := s
            status :=
              if (1 : ℚ) ≤ s then "answered"
              else if 0 < s then "captured" else item.status
            answer :=
              if (1 : ℚ) ≤ s then some "Completed"
              else if 0 < s then
                some ("In Progress (" ++ pct_str s ++ "%)")
              else item.answer } true := by
  unfold process_item
  rw [if_neg hskip, hgate]
  simp only [Bool.false_eq_true, if_false, hgen, hex, hserde]
  by_cases h1 : (1 : ℚ) ≤ s
  · simp [h1]
  · by_cases h2 : 0 < s
    · simp [h1, h2]
    · simp [h1, h2]

/-- Evaluation of the percentage rendering at one half: the binary32
product `0.5 * 100.0` is exactly `50.0`, and `{:.0}` of `50.0` is `"50"`. -/
theorem pct_str_half : pct_str (1 / 2) = "50" := by
  unfold pct_str
  rw [show (1 / 2 : ℚ) * 100 = ((50 : ℕ) : ℚ) by norm_num,
    roundF32sub_natCast 50 (by norm_num) (by norm_num),
    show ((50 : ℕ) : ℚ) = ((50 : ℤ) : ℚ) by norm_num, rhe_intCast]
  decide

/-- Corroboration that the binary32 multiply in `pct_str` matters: at the
score `0.015` (as binary32, the rational `16106127 * 2^-30`) the exact
product with `100` is strictly below `1.5`, but the binary32 product is
exactly `1.5`, whose `{:.0}` rendering ties to even, giving `"2"` — the
behaviour of the running program. -/
theorem pct_str_score_0p015 :
    (16106127 / 1073741824 : ℚ) * 100 < 3 / 2 ∧
    pct_str (16106127 / 1073741824) = "2" := by
  constructor
  · norm_num
  unfold pct_str
  rw [show (16106127 / 1073741824 : ℚ) * 100 = 1610612700 / 1073741824 by
    norm_num]
  have hr : roundF32sub (1610612700 / 1073741824 : ℚ) = 3 / 2 := by
    unfold roundF32sub
    rw [if_neg (by norm_num), if_neg, if_neg (by norm_num)]
    · unfold roundPos
      have hlog : Int.log 2 ((1610612700 : ℚ) / 1073741824) = 0 :=
        log2_eq (by norm_num) (by norm_num) (by norm_num)
      rw [hlog,
        show (1610612700 / 1073741824 : ℚ) * 2 ^ ((23 : ℤ) - 0) =
          1610612700 / 128 by norm_num]
      have hfl : ⌊(1610612700 / 128 : ℚ)⌋ = 12582911 := by
        rw [Int.floor_eq_iff]
        constructor <;> norm_num
      rw [rhe_of_gt (by rw [hfl]; norm_num), hfl]
      norm_num
    · rw [not_lt,
        abs_of_pos (by norm_num : (0 : ℚ) < 1610612700 / 1073741824)]
      norm_num
  rw [hr]
  have hfl2 : ⌊(3 / 2 : ℚ)⌋ = 1 := by
    rw [Int.floor_eq_iff]
    constructor <;> norm_num
  rw [rhe_of_tie_odd (by rw [hfl2]; norm_num) (by rw [hfl2]; decide), hfl2]
  decide

/-- Counterexample to C1 as stated: an item whose score `0.95` has reached
`answered_threshold = 0.95` but whose status field reads `"in_progress"`
is NOT excluded — the model is consulted and the item is rescored (here
down to `0.5`, status `"captured"`). -/
theorem C1_counterexample :
    process_item
      (fun _ => some "\x7b\"match\": true, \"score\": 0.5\x7d")
      (fun s =>
        if s = "\x7b\"match\": true, \"score\": 0.5\x7d" then
          some ⟨true, 1 / 2, none⟩
        else none)
      "llama3" "the transcript" none (35 / 100) (95 / 100)
      ⟨"g1", "goal", "in_progress", none, 95 / 100, [], none⟩ =
    ItemOutcome.ok
      ⟨"g1", "goal", "captured", some "In Progress (50%)", 1 / 2, [], none⟩
      true ∧
    ItemOutcome.ok
        (⟨"g1", "goal", "captured", some "In Progress (50%)", 1 / 2, [],
          none⟩ : AgendaItem) true ≠
      ItemOutcome.ok
        (⟨"g1", "goal", "in_progress", none, 95 / 100, [], none⟩ :
          AgendaItem) false := by
  constructor
  · rw [process_item_matched
      (fun _ => some "\x7b\"match\": true, \"score\": 0.5\x7d")
      (fun s =>
        if s = "\x7b\"match\": true, \"score\": 0.5\x7d" then
          some ⟨true, 1 / 2, none⟩
        else none)
      "llama3" "the transcript" none (35 / 100) (95 / 100)
      ⟨"g1", "goal", "in_progress", none, 95 / 100, [], none⟩
      "\x7b\"match\": true, \"score\": 0.5\x7d"
      "\x7b\"match\": true, \"score\": 0.5\x7d" (1 / 2) none
      (by intro h; exact absurd h.1 (by decide)) rfl rfl (by decide)
      (by simp)]
    have hs1 : ¬(1 : ℚ) ≤ 1 / 2 := by norm_num
    have hs2 : (0 : ℚ) < 1 / 2 := by norm_num
    simp only [if_neg hs1, if_pos hs2, push_new_evidence, pct_str_half]
    rfl
  · intro hco
    exact absurd (ItemOutcome.ok.inj hco).2 (by decide)

/-- C2 (amended): after a tick in which the model reply for an item parses
and reports a match, the item's score equals the model-provided total, the
non-empty evidence is appended, and the status is driven by the new score:
`"answered"` iff the new score is `≥ 1.0`, the in-progress marker
`"captured"` (surfaced as `In Progress (N%)` in the answer field, `N`
being the binary32 product `score * 100.0` rendered by `{:.0}`, i.e.
rounded half to even) whenever `0 < score < 1`, and status/answer are left
untouched when the new score is `≤ 0`.  (The original claim's status
string `'in_progress'` fails: the code writes `"captured"`; see
`C2_counterexample`.) -/
theorem C2_matched_reply_updates_item (gen : GenRequest → Option String)
    (serde : String → Option ScoreResponse) (model text : String)
    (text_embedding : Option (List ℚ))
    (similarity_threshold answered_threshold : ℚ) (item : AgendaItem)
    (raw cleaned : String) (s : ℚ) (ev : Option String)
    (hskip : ¬(item.status = "answered" ∧ answered_threshold ≤ item.score))
    (hgate : sim_gate_skips text_embedding item.embedding
      similarity_threshold = false)
    (hgen : gen ⟨model, mk_prompt item text, false⟩ = some raw)
    (hex : extract_braces raw = Extract.ok cleaned)
    (hserde : serde cleaned = some ⟨true, s, ev⟩) :
    process_item gen serde model text text_embedding similarity_threshold
        answered_threshold item =
      ItemOutcome.ok
        { item with
            evidence := push_new_evidence item.evidence ev
            score := s
            status :=
              if (1 : ℚ) ≤ s then "answered"
              else if 0 < s then "captured" else item.status
            answer :=
              if (1 : ℚ) ≤ s then some "Completed"
              else if 0 < s then
                some ("In Progress (" ++ pct_str s ++ "%)")
              else item.answer } true :=
  process_item_matched gen serde model text text_embedding
    similarity_threshold answered_threshold item raw cleaned s ev hskip hgate
    hgen hex hserde

/-- Witness for C2: a pending item, a reply carrying `match: true`,
`score: 0.5` and an evidence sentence. -/
theorem C2_matched_reply_updates_item_witness :
    (¬((⟨"q2", "goal2", "pending", none, 0, [], none⟩ :
        AgendaItem).status = "answered" ∧
      (95 / 100 : ℚ) ≤
        (⟨"q2", "goal2", "pending", none, 0, [], none⟩ :
          AgendaItem).score)) ∧
    (sim_gate_skips none
        (⟨"q2", "goal2", "pending", none, 0, [], none⟩ :
          AgendaItem).embedding (35 / 100) = false) ∧
    ((fun _ => some "\x7b\"match\": true, \"score\": 0.5, \"new_evidence\": \"Discussed budget.\"\x7d" :
        GenRequest → Option String)
      ⟨"m", mk_prompt ⟨"q2", "goal2", "pending", none, 0, [], none⟩ "t",
        false⟩ =
      some "\x7b\"match\": true, \"score\": 0.5, \"new_evidence\": \"Discussed budget.\"\x7d") ∧
    (extract_braces
        "\x7b\"match\": true, \"score\": 0.5, \"new_evidence\": \"Discussed budget.\"\x7d" =
      Extract.ok
        "\x7b\"match\": true, \"score\": 0.5, \"new_evidence\": \"Discussed budget.\"\x7d") ∧
    ((fun c =>
        if c = "\x7b\"match\": true, \"score\": 0.5, \"new_evidence\": \"Discussed budget.\"\x7d"
        then some (⟨true, 1 / 2, some "Discussed budget."⟩ : ScoreResponse)
        else none)
      "\x7b\"match\": true, \"score\": 0.5, \"new_evidence\": \"Discussed budget.\"\x7d" =
      some ⟨true, 1 / 2, some "Discussed budget."⟩) ∧
    process_item
      (fun _ => some "\x7b\"match\": true, \"score\": 0.5, \"new_evidence\": \"Discussed budget.\"\x7d")
      (fun c =>
        if c = "\x7b\"match\": true, \"score\": 0.5, \"new_evidence\": \"Discussed budget.\"\x7d"
        then some (⟨true, 1 / 2, some "Discussed budget."⟩ : ScoreResponse)
        else none)
      "m" "t" none (35 / 100) (95 / 100)
      ⟨"q2", "goal2", "pending", none, 0, [], none⟩ =
      ItemOutcome.ok
        { (⟨"q2", "goal2", "pending", none, 0, [], none⟩ : AgendaItem) with
            evidence :=
              push_new_evidence [] (some "Discussed budget.")
            score := (1 / 2 : ℚ)
            status :=
              if (1 : ℚ) ≤ (1 / 2 : ℚ) then "answered"
              else if (0 : ℚ) < 1 / 2 then "captured" else "pending"
            answer :=
              if (1 : ℚ) ≤ (1 / 2 : ℚ) then some "Completed"
              else if (0 : ℚ) < 1 / 2 then
                some ("In Progress (" ++ pct_str (1 / 2) ++ "%)")
              else none } true :=
  ⟨fun h => absurd h.1 (by decide), rfl, rfl, by decide, by simp,
    C2_matched_reply_updates_item
      (fun _ => some "\x7b\"match\": true, \"score\": 0.5, \"new_evidence\": \"Discussed budget.\"\x7d")
      (fun c =>
        if c = "\x7b\"match\": true, \"score\": 0.5, \"new_evidence\": \"Discussed budget.\"\x7d"
        then some (⟨true, 1 / 2, some "Discussed budget."⟩ : ScoreResponse)
        else none)
      "m" "t" none (35 / 100) (95 / 100)
      ⟨"q2", "goal2", "pending", none, 0, [], none⟩
      "\x7b\"match\": true, \"score\": 0.5, \"new_evidence\": \"Discussed budget.\"\x7d"
      "\x7b\"match\": true, \"score\": 0.5, \"new_evidence\": \"Discussed budget.\"\x7d"
      (1 / 2)
      (some "Discussed budget.") (fun h => absurd h.1 (by decide)) rfl rfl
      (by decide) (by simp)⟩

/-- Counterexample to C2 as stated: a matched reply with total `0.5`
(strictly between 0 and 1) sets the status field to `"captured"`, not to
`'in_progress'`. -/
theorem C2_counterexample :
    process_item
      (fun _ => some "\x7b\"match\": true, \"score\": 0.5\x7d")
      (fun s =>
        if s = "\x7b\"match\": true, \"score\": 0.5\x7d" then
          some ⟨true, 1 / 2, none⟩
        else none)
      "m" "t" none (35 / 100) (95 / 100)
      ⟨"q3", "goal3", "pending", none, 0, [], none⟩ =
    ItemOutcome.ok
      ⟨"q3", "goal3", "captured", some "In Progress (50%)", 1 / 2, [], none⟩
      true ∧
    (0 : ℚ) < 1 / 2 ∧ (1 / 2 : ℚ) < 1 ∧
    ("captured" : String) ≠ "in_progress" := by
  refine ⟨?_, by norm_num, by norm_num, by decide⟩
  rw [process_item_matched
    (fun _ => some "\x7b\"match\": true, \"score\": 0.5\x7d")
    (fun s =>
      if s = "\x7b\"match\": true, \"score\": 0.5\x7d" then
        some ⟨true, 1 / 2, none⟩
      else none)
    "m" "t" none (35 / 100) (95 / 100)
    ⟨"q3", "goal3", "pending", none, 0, [], none⟩
    "\x7b\"match\": true, \"score\": 0.5\x7d"
    "\x7b\"match\": true, \"score\": 0.5\x7d" (1 / 2) none
    (fun h => absurd h.1 (by decide)) rfl rfl (by decide) (by simp)]
  have hs1 : ¬(1 : ℚ) ≤ 1 / 2 := by norm_num
  have hs2 : (0 : ℚ) < 1 / 2 := by norm_num
  simp only [if_neg hs1, if_pos hs2, push_new_evidence, pct_str_half]
  rfl

/-- C9 (the claim is right, the code has a bug): a raw model output whose
first left brace comes after its last right brace (the failing input
below is the five-character string: right brace, space, oops, space, left
brace) yields no parseable record, so per the claim the item must be left
unchanged with no surfaced error; the Rust code instead panics on the
inclusive slice `&json_str[start..=end]` (start byte 8, end byte 0),
killing the worker thread and poisoning the agenda lock. -/
theorem C9_extraction_panics_on_reversed_braces :
    extract_braces "\x7d oops \x7b" = Extract.panicked ∧
    process_item (fun _ => some "\x7d oops \x7b") (fun _ => none) "m" "t"
        none (35 / 100) (95 / 100)
        ⟨"g", "goal", "pending", none, 0, [], none⟩ =
      ItemOutcome.panicked := by
  constructor
  · decide
  · unfold process_item
    rw [if_neg (fun h => absurd h.1 (by decide))]
    have hgate : sim_gate_skips none none (35 / 100 : ℚ) = false := rfl
    rw [hgate]
    simp only [Bool.false_eq_true, if_false]
    have hex : extract_braces "\x7d oops \x7b" = Extract.panicked := by
      decide
    rw [hex]
/-! ## Transcription cache and on-demand command
(`src/src-tauri/src/commands.rs`, `transcribe_latest`)

The cache is `last_transcript`/`last_updated`; `Instant` timestamps become
natural-number seconds (`elapsed = now - updated_at`, saturating like the
monotonic clock).  The whisper invocation `run_transcription` is an
external model call and is passed as an oracle returning `Except` like the
Rust `Result`. -/

/-- The transcript cache: `{ text, updated_at }`. -/
structure TranscriptCache where
  text : String
  updated_at : ℕ
deriving DecidableEq

/-- Embedding of `transcribe_latest` from `commands.rs`: serve the cache when it is
fresh and non-empty; otherwise snapshot the buffer, return `""` for an
empty snapshot (cache untouched), else run transcription and on success
overwrite the cache with the new text and the current time. -/
def transcribe_latest (now freshness : ℕ) (cache : TranscriptCache)
    (buffer : List ℚ) (run_transcription : List ℚ → Except String String) :
    Except String String × TranscriptCache :=
  if now - cache.updated_at < freshness ∧ cache.text ≠ "" then
    (Except.ok cache.text, cache)
  else if buffer = [] then (Except.ok "", cache)
  else
    match run_transcription buffer with
    | Except.ok text => (Except.ok text, ⟨text, now⟩)
    | Except.error e => (Except.error e, cache)

/-- C7 (amended): the command serves the fresh non-empty cache without
invoking the model; otherwise it returns `""` for an empty buffer snapshot
leaving the cache untouched, runs transcription for a non-empty snapshot,
overwrites the cache (text and timestamp) only on success, and leaves the
cache untouched on a transcription error.  (The original claim's "in every
other case … overwrites the cache" fails on the empty-buffer and error
paths: see `C7_counterexample`.) -/
theorem C7_transcribe_latest_cases (now freshness : ℕ)
    (cache : TranscriptCache) (buffer : List ℚ)
    (tr : List ℚ → Except String String) (t e : String) :
    (now - cache.updated_at < freshness ∧ cache.text ≠ "" →
      transcribe_latest now freshness cache buffer tr =
        (Except.ok cache.text, cache)) ∧
    (¬(now - cache.updated_at < freshness ∧ cache.text ≠ "") →
      buffer = [] →
      transcribe_latest now freshness cache buffer tr =
        (Except.ok "", cache)) ∧
    (¬(now - cache.updated_at < freshness ∧ cache.text ≠ "") →
      buffer ≠ [] → tr buffer = Except.ok t →
      transcribe_latest now freshness cache buffer tr =
        (Except.ok t, ⟨t, now⟩)) ∧
    (¬(now - cache.updated_at < freshness ∧ cache.text ≠ "") →
      buffer ≠ [] → tr buffer = Except.error e →
      transcribe_latest now freshness cache buffer tr =
        (Except.error e, cache)) := by
  refine ⟨?_, ?_, ?_, ?_⟩
  · intro hfresh
    unfold transcribe_latest
    rw [if_pos hfresh]
  · intro hstale hbuf
    unfold transcribe_latest
    rw [if_neg hstale, if_pos hbuf]
  · intro hstale hbuf htr
    unfold transcribe_latest
    rw [if_neg hstale, if_neg hbuf, htr]
  · intro hstale hbuf htr
    unfold transcribe_latest
    rw [if_neg hstale, if_neg hbuf, htr]

/-- Witness for C7: all four cases at concrete inputs (the fresh case uses
an erroring oracle to exhibit that the model result is irrelevant there). -/
theorem C7_transcribe_latest_cases_witness :
    transcribe_latest 5 10 ⟨"cached", 0⟩ [1]
        (fun _ => Except.error "not invoked") =
      (Except.ok "cached", ⟨"cached", 0⟩) ∧
    transcribe_latest 100 10 ⟨"old", 0⟩ []
        (fun _ => Except.error "not invoked") = (Except.ok "", ⟨"old", 0⟩) ∧
    transcribe_latest 100 10 ⟨"old", 0⟩ [1] (fun _ => Except.ok "fresh") =
      (Except.ok "fresh", ⟨"fresh", 100⟩) ∧
    transcribe_latest 100 10 ⟨"old", 0⟩ [1] (fun _ => Except.error "boom") =
      (Except.error "boom", ⟨"old", 0⟩) :=
  ⟨(C7_transcribe_latest_cases 5 10 ⟨"cached", 0⟩ [1]
      (fun _ => Except.error "not invoked") "" "").1 (by decide),
   (C7_transcribe_latest_cases 100 10 ⟨"old", 0⟩ []
      (fun _ => Except.error "not invoked") "" "").2.1 (by decide) rfl,
   (C7_transcribe_latest_cases 100 10 ⟨"old", 0⟩ [1]
      (fun _ => Except.ok "fresh") "fresh" "").2.2.1 (by decide)
      (by decide) rfl,
   (C7_transcribe_latest_cases 100 10 ⟨"old", 0⟩ [1]
      (fun _ => Except.error "boom") "" "boom").2.2.2 (by decide)
      (by decide) rfl⟩

/-- Counterexample to C7 as stated: with a stale cache and an empty buffer
snapshot the command neither runs transcription nor overwrites the cache —
it returns `""` and the cache keeps its old text and timestamp. -/
theorem C7_counterexample :
    transcribe_latest 100 10 ⟨"old", 0⟩ [] (fun _ => Except.ok "fresh") =
      (Except.ok "", ⟨"old", 0⟩) ∧
    ¬(100 - (0 : ℕ) < 10 ∧ ("old" : String) ≠ "") ∧
    ((⟨"old", 0⟩ : TranscriptCache).updated_at ≠ 100 ∧
      (⟨"old", 0⟩ : TranscriptCache).text ≠ "fresh") := by
  refine ⟨rfl, by decide, by decide, by decide⟩

/-! ## Worker-tick gates (`src/src-tauri/src/audio.rs`, `spawn_worker`,
lines 218–280)

After a successful transcription the worker runs, in order:

    if text.is_empty() { … continue; }
    if text == last_detected_text { … continue; }
    if text.len() >= min_chars { …score…; last_detected_text = text; }
    else { "Insufficient text" }

`text.len()` is the UTF-8 byte length of the Rust string.  `worker_gate`
returns whether scoring runs and the new `last_detected_text`. -/

/-- The scoring gates of one worker tick: empty-text gate, unchanged-text
gate, minimum-length gate; only an actual submission updates
`last_detected_text`. -/
def worker_gate (text last_detected_text : String) (min_chars : ℕ) :
    Bool × String :=
  if text = "" then (false, last_detected_text)
  else if text = last_detected_text then (false, last_detected_text)
  else if min_chars ≤ text.utf8ByteSize then (true, text)
  else (false, last_detected_text)

/-- C8 (amended): scoring runs exactly when the transcript is non-empty,
differs byte-wise from the last submitted text, and its UTF-8 byte length
(Rust `str::len`, not the character count) reaches `min_chars`; the
last-submitted text is updated exactly on submission, so short-skips and
all other skips leave it unchanged.  (The original claim's "length in
characters" fails on multi-byte text: see `C8_counterexample`.) -/
theorem C8_scoring_skip_gates (text last_detected_text : String)
    (min_chars : ℕ) :
    ((worker_gate text last_detected_text min_chars).1 = true ↔
      text ≠ "" ∧ text ≠ last_detected_text ∧
        min_chars ≤ text.utf8ByteSize) ∧
    (worker_gate text last_detected_text min_chars).2 =
      (if (worker_gate text last_detected_text min_chars).1 = true then text
       else last_detected_text) := by
  unfold worker_gate
  by_cases h1 : text = ""
  · simp [h1]
  · by_cases h2 : text = last_detected_text
    · simp [h1, h2]
    · by_cases h3 : min_chars ≤ text.utf8ByteSize
      · simp [h1, h2, h3]
      · simp [h1, h2, h3]

/-- Witness for C8 at a concrete tick: a five-byte ASCII transcript with
`min_chars = 3` is submitted and becomes the last-submitted text. -/
theorem C8_scoring_skip_gates_witness :
    (((worker_gate "abcde" "x" 3).1 = true ↔
      ("abcde" : String) ≠ "" ∧ ("abcde" : String) ≠ "x" ∧
        3 ≤ ("abcde" : String).utf8ByteSize) ∧
    (worker_gate "abcde" "x" 3).2 =
      (if (worker_gate "abcde" "x" 3).1 = true then "abcde" else "x")) :=
  C8_scoring_skip_gates "abcde" "x" 3

/-- Counterexample to C8 as stated: the two-character transcript `"éé"`
has byte length 4, so with `min_chars = 4` scoring runs even though its
length in characters (2) is below the minimum. -/
theorem C8_counterexample :
    ("éé" : String).length < 4 ∧ ("éé" : String).utf8ByteSize = 4 ∧
    (worker_gate "éé" "x" 4).1 = true := by
  refine ⟨by decide, by decide, by decide⟩

/-! ## Silence preprocessor (`preprocess_audio`)

Two live variants exist in the repository: `transcription.rs` lines 87–110
(gate `max_peak > 0.0`, target `0.95`) and the historical snapshot
`audio.rs` lines 560–587 (gate `max_amplitude > 1e-6`, target `0.9`).
Both are embedded, in namespaces named after their files, each twice: a
faithful binary32 model (`preprocess`, every `f32` operation rounded, the
literals at their binary32 values: `0.95f32 = 15938355 * 2^-24`,
`0.9f32 = 7549747 * 2^-23`, `1e-6f32 = 8796093 * 2^-43`) and an
exact-arithmetic idealization (`preprocess_exact`), against which the
zero-mean and exact-peak clauses are stated. -/

/-- Exact-arithmetic idealization of the DC-offset removal step shared by
both variants: subtract the arithmetic mean.  (The faithful binary32
centering is `centeredF32`.) -/
def dc_centered (samples : List ℚ) : List ℚ :=
  samples.map (fun s => s - samples.sum / (samples.length : ℚ))

/-- Peak absolute amplitude: `iter().map(abs).fold(0.0, max)`.  Binary32
`abs` and `max` are exact, so this single definition serves the faithful
model and the idealization alike. -/
def peakAbs (l : List ℚ) : ℚ := (l.map (fun s => |s|)).foldl max 0

/-- The binary32 mean line shared by both variants:
`samples.iter().sum::<f32>() / samples.len() as f32` (binary32 sum, the
length cast rounded, binary32 division). -/
def meanF32 (samples : List ℚ) : ℚ :=
  divF32 (sumF32 samples) (roundF32sub (samples.length : ℚ))

/-- The binary32 centering loop: `*s -= mean` for each sample. -/
def centeredF32 (samples : List ℚ) : List ℚ :=
  samples.map (fun s => subF32 s (meanF32 samples))

namespace Transcription

/-- Embedding of `preprocess_audio` from `transcription.rs` with every
`f32` operation rounded to binary32: the mean is the binary32 sum divided
by the rounded length cast, the centering subtracts it in binary32, abs
and max are exact, and the normalization branch computes the binary32 gain
`0.95f32 / max_peak` once and applies one binary32 multiply per sample. -/
def preprocess (samples : List ℚ) : List ℚ :=
  if samples = [] then samples
  else if 0 < peakAbs (centeredF32 samples) then
    (centeredF32 samples).map (fun s =>
      mulF32 s (divF32 (15938355 / 16777216) (peakAbs (centeredF32 samples))))
  else centeredF32 samples

/-- Exact-arithmetic idealization of `preprocess_audio` from
`transcription.rs`: DC-offset removal, then peak normalization to `0.95`
when the peak is strictly positive, every `f32` operation replaced by the
exact rational one.  (The faithful binary32 embedding is `preprocess`.) -/
def preprocess_exact (samples : List ℚ) : List ℚ :=
  if samples = [] then samples
  else
    let centered := dc_centered samples
    let max_peak := peakAbs centered
    if 0 < max_peak then centered.map (fun s => s * (95 / 100 / max_peak))
    else centered

end Transcription

namespace AudioRs

/-- Embedding of `preprocess_audio` from `audio.rs` with every `f32`
operation rounded to binary32; the normalization is gated on the centered
peak exceeding the binary32 value of the literal `1e-6`, with binary32
gain `0.9f32 / max_amplitude`. -/
def preprocess (samples : List ℚ) : List ℚ :=
  if samples = [] then samples
  else if 8796093 / 8796093022208 < peakAbs (centeredF32 samples) then
    (centeredF32 samples).map (fun s =>
      mulF32 s (divF32 (7549747 / 8388608) (peakAbs (centeredF32 samples))))
  else centeredF32 samples

/-- Exact-arithmetic idealization of `preprocess_audio` from `audio.rs`:
DC-offset removal, then peak normalization to `0.9`, gated on the peak
exceeding `1e-6`, every `f32` operation replaced by the exact rational
one.  (The faithful binary32 embedding is `preprocess`.) -/
def preprocess_exact (samples : List ℚ) : List ℚ :=
  if samples = [] then samples
  else
    let centered := dc_centered samples
    let max_amplitude := peakAbs centered
    if 1 / 1000000 < max_amplitude then
      centered.map (fun s => s * (9 / 10 / max_amplitude))
    else centered

end AudioRs

theorem sum_map_sub (l : List ℚ) (c : ℚ) :
    (l.map (fun x => x - c)).sum = l.sum - l.length * c := by
  induction l with
  | nil => simp
  | cons x xs ih =>
    simp only [List.map_cons, List.sum_cons, List.length_cons, ih]
    push_cast
    ring

theorem sum_map_mul (l : List ℚ) (g : ℚ) :
    (l.map (fun x => x * g)).sum = l.sum * g := by
  induction l with
  | nil => simp
  | cons x xs ih =>
    simp only [List.map_cons, List.sum_cons, ih]
    ring

/-- DC-offset removal produces an exactly zero-mean signal. -/
theorem dc_centered_sum (samples : List ℚ) (h : samples ≠ []) :
    (dc_centered samples).sum = 0 := by
  unfold dc_centered
  rw [sum_map_sub]
  have hlen : (samples.length : ℚ) ≠ 0 := by
    have : samples.length ≠ 0 := by
      intro hc
      exact h (List.length_eq_zero.mp hc)
    exact_mod_cast this
  field_simp

theorem foldl_max_map_mul (g : ℚ) (hg : 0 ≤ g) :
    ∀ (l : List ℚ) (acc : ℚ),
      ((l.map (fun s => s * g)).map (fun s => |s|)).foldl max (acc * g) =
        ((l.map fun s => |s|).foldl max acc) * g := by
  intro l
  induction l with
  | nil => intro acc; simp
  | cons x xs ih =>
    intro acc
    simp only [List.map_cons, List.foldl_cons]
    rw [abs_mul, abs_of_nonneg hg, ← max_mul_of_nonneg _ _ hg]
    exact ih (max acc |x|)

/-- Scaling by a nonnegative gain scales the peak. -/
theorem peakAbs_map_mul (l : List ℚ) (g : ℚ) (hg : 0 ≤ g) :
    peakAbs (l.map (fun s => s * g)) = peakAbs l * g := by
  unfold peakAbs
  have h := foldl_max_map_mul g hg l 0
  rw [zero_mul] at h
  exact h

theorem peakAbs_of_all_zero (l : List ℚ) (h : ∀ x ∈ l, x = 0) :
    peakAbs l = 0 := by
  induction l with
  | nil => rfl
  | cons x xs ih =>
    have hx : x = 0 := h x (by simp)
    unfold peakAbs at *
    simp only [List.map_cons, List.foldl_cons, hx, abs_zero, max_self]
    exact ih (fun y hy => h y (by simp [hy]))

/-- An all-zero signal is its own DC-centering. -/
theorem dc_centered_of_all_zero (l : List ℚ) (h : ∀ x ∈ l, x = 0) :
    dc_centered l = l := by
  unfold dc_centered
  rw [List.sum_eq_zero h]
  simp only [zero_div, sub_zero, List.map_id']

theorem map_id_of_eq {f : ℚ → ℚ} :
    ∀ (l : List ℚ), (∀ x ∈ l, f x = x) → l.map f = l := by
  intro l
  induction l with
  | nil => intro _; rfl
  | cons x xs ih =>
    intro h
    rw [List.map_cons, h x (by simp), ih (fun y hy => h y (by simp [hy]))]

/-- The binary32 mean of an all-zero slice is exactly zero. -/
theorem meanF32_all_zero (l : List ℚ) (h : ∀ x ∈ l, x = 0) :
    meanF32 l = 0 := by
  unfold meanF32 divF32
  rw [sumF32_all_zero l h, zero_div, roundF32sub_zero]

/-- Binary32 centering of an all-zero slice is the identity. -/
theorem centeredF32_all_zero (l : List ℚ) (h : ∀ x ∈ l, x = 0) :
    centeredF32 l = l := by
  unfold centeredF32
  rw [meanF32_all_zero l h]
  refine map_id_of_eq l (fun x hx => ?_)
  rw [h x hx]
  unfold subF32
  rw [sub_zero, roundF32sub_zero]

/-- Over the faithful binary32 models an all-zero slice is returned
bit-identically by both `preprocess_audio` variants: every operation in
play (sums, mean, subtractions, peak) is exact on zeros, both gates are
closed, and no division by zero occurs. -/
theorem preprocess_f32_all_zero (l : List ℚ) (h : ∀ x ∈ l, x = 0) :
    Transcription.preprocess l = l ∧ AudioRs.preprocess l = l := by
  have hc : centeredF32 l = l := centeredF32_all_zero l h
  have hp : peakAbs l = 0 := peakAbs_of_all_zero l h
  constructor
  · unfold Transcription.preprocess
    by_cases hne : l = []
    · rw [if_pos hne]
    · rw [if_neg hne, hc, hp, if_neg (by norm_num)]
  · unfold AudioRs.preprocess
    by_cases hne : l = []
    · rw [if_pos hne]
    · rw [if_neg hne, hc, hp, if_neg (by norm_num)]

/-- C6 (amended): both `preprocess_audio` variants first subtract the
arithmetic mean — the result is exactly zero-mean in exact arithmetic,
only approximately in binary32 — then the `transcription.rs` variant
rescales any signal with strictly positive peak (target `0.95`) and the
`audio.rs` variant only those whose peak exceeds its `1e-6` gate (target
`0.9`), the new peak equalling the target exactly in exact arithmetic and
only approximately in binary32; an all-zero slice is returned unchanged by
both — exactly, even in binary32 — with no division by zero.  (The
original claim's "whenever the peak is positive" and its exact-peak
reading both fail on the faithful model: see `C6_counterexample`.) -/
theorem C6_preprocess_audio_spec (s0 s1 s2 s3 : List ℚ) (hne0 : s0 ≠ [])
    (hne1 : s1 ≠ []) (hpk1 : 0 < peakAbs (dc_centered s1)) (hne2 : s2 ≠ [])
    (hpk2 : 1 / 1000000 < peakAbs (dc_centered s2))
    (hz : ∀ x ∈ s3, x = 0) :
    ((Transcription.preprocess_exact s0).sum = 0 ∧
      (AudioRs.preprocess_exact s0).sum = 0) ∧
    peakAbs (Transcription.preprocess_exact s1) = 95 / 100 ∧
    peakAbs (AudioRs.preprocess_exact s2) = 9 / 10 ∧
    (Transcription.preprocess s3 = s3 ∧ AudioRs.preprocess s3 = s3) ∧
    (Transcription.preprocess_exact s3 = s3 ∧
      AudioRs.preprocess_exact s3 = s3) := by
  refine ⟨⟨?_, ?_⟩, ?_, ?_, preprocess_f32_all_zero s3 hz, ?_, ?_⟩
  · unfold Transcription.preprocess_exact
    rw [if_neg hne0]
    by_cases hpk : 0 < peakAbs (dc_centered s0)
    · rw [if_pos hpk, sum_map_mul, dc_centered_sum s0 hne0, zero_mul]
    · rw [if_neg hpk]
      exact dc_centered_sum s0 hne0
  · unfold AudioRs.preprocess_exact
    rw [if_neg hne0]
    by_cases hpk : (1 : ℚ) / 1000000 < peakAbs (dc_centered s0)
    · rw [if_pos hpk, sum_map_mul, dc_centered_sum s0 hne0, zero_mul]
    · rw [if_neg hpk]
      exact dc_centered_sum s0 hne0
  · unfold Transcription.preprocess_exact
    rw [if_neg hne1, if_pos hpk1,
      peakAbs_map_mul _ _ (by positivity)]
    field_simp
    ring
  · have hpk2pos : 0 < peakAbs (dc_centered s2) := lt_trans (by norm_num) hpk2
    unfold AudioRs.preprocess_exact
    rw [if_neg hne2, if_pos hpk2,
      peakAbs_map_mul _ _ (by positivity)]
    field_simp
    ring
  · unfold Transcription.preprocess_exact
    by_cases hne : s3 = []
    · rw [if_pos hne]
    · rw [if_neg hne, dc_centered_of_all_zero s3 hz]
      have hp : peakAbs s3 = 0 := peakAbs_of_all_zero s3 hz
      simp [hp]
  · unfold AudioRs.preprocess_exact
    by_cases hne : s3 = []
    · rw [if_pos hne]
    · rw [if_neg hne, dc_centered_of_all_zero s3 hz]
      have hp : peakAbs s3 = 0 := peakAbs_of_all_zero s3 hz
      simp [hp]

/-- Witness for C6 at concrete signals: `[1, 3]` (nonzero mean), `[-1, 1]`
(unit peak) and the all-zero `[0, 0]`. -/
theorem C6_preprocess_audio_spec_witness :
    (([1, 3] : List ℚ) ≠ [] ∧ ([-1, 1] : List ℚ) ≠ [] ∧
      0 < peakAbs (dc_centered [-1, 1]) ∧
      (1 : ℚ) / 1000000 < peakAbs (dc_centered [-1, 1]) ∧
      (∀ x ∈ ([0, 0] : List ℚ), x = 0)) ∧
    ((Transcription.preprocess_exact [1, 3]).sum = 0 ∧
      (AudioRs.preprocess_exact [1, 3]).sum = 0) ∧
    peakAbs (Transcription.preprocess_exact [-1, 1]) = 95 / 100 ∧
    peakAbs (AudioRs.preprocess_exact [-1, 1]) = 9 / 10 ∧
    (Transcription.preprocess [0, 0] = [0, 0] ∧
      AudioRs.preprocess [0, 0] = [0, 0]) ∧
    (Transcription.preprocess_exact [0, 0] = [0, 0] ∧
      AudioRs.preprocess_exact [0, 0] = [0, 0]) :=
  ⟨⟨by simp, by simp, by norm_num [dc_centered, peakAbs],
    by norm_num [dc_centered, peakAbs], by norm_num⟩,
   C6_preprocess_audio_spec [1, 3] [-1, 1] [-1, 1] [0, 0] (by simp)
     (by simp) (by norm_num [dc_centered, peakAbs]) (by simp)
     (by norm_num [dc_centered, peakAbs]) (by norm_num)⟩

/-- Counterexample to C6 as stated, over the faithful binary32 model: the
`audio.rs` variant returns the signal `[2^-24, -2^-24]` bit-identically.
Every binary32 step on this input is exact (the sum cancels exactly, the
mean is `0.0`, the subtractions reproduce the samples, abs and max are
exact), the centered peak `2^-24` is positive, yet it lies below the gate
(`1e-6` as binary32 is `8796093 * 2^-43`), so no rescaling happens and the
output peak is neither `0.9` nor `0.95` of full scale (nor the binary32
value of either literal). -/
theorem C6_counterexample :
    AudioRs.preprocess [(2 : ℚ) ^ (-24 : ℤ), -(2 : ℚ) ^ (-24 : ℤ)] =
      [(2 : ℚ) ^ (-24 : ℤ), -(2 : ℚ) ^ (-24 : ℤ)] ∧
    0 < peakAbs (centeredF32 [(2 : ℚ) ^ (-24 : ℤ), -(2 : ℚ) ^ (-24 : ℤ)]) ∧
    peakAbs (AudioRs.preprocess
        [(2 : ℚ) ^ (-24 : ℤ), -(2 : ℚ) ^ (-24 : ℤ)]) ≠ 9 / 10 ∧
    peakAbs (AudioRs.preprocess
        [(2 : ℚ) ^ (-24 : ℤ), -(2 : ℚ) ^ (-24 : ℤ)]) ≠ 7549747 / 8388608 ∧
    peakAbs (AudioRs.preprocess
        [(2 : ℚ) ^ (-24 : ℤ), -(2 : ℚ) ^ (-24 : ℤ)]) ≠ 95 / 100 ∧
    peakAbs (AudioRs.preprocess
        [(2 : ℚ) ^ (-24 : ℤ), -(2 : ℚ) ^ (-24 : ℤ)]) ≠
      15938355 / 16777216 := by
  have hw : (0 : ℚ) < (2 : ℚ) ^ (-24 : ℤ) := by positivity
  have hrw : roundF32sub ((2 : ℚ) ^ (-24 : ℤ)) = (2 : ℚ) ^ (-24 : ℤ) :=
    roundF32sub_zpow (-24) (by norm_num)
  have hrnw : roundF32sub (-(2 : ℚ) ^ (-24 : ℤ)) = -(2 : ℚ) ^ (-24 : ℤ) :=
    roundF32sub_neg_zpow (-24) (by norm_num)
  have hsum : sumF32 [(2 : ℚ) ^ (-24 : ℤ), -(2 : ℚ) ^ (-24 : ℤ)] = 0 := by
    unfold sumF32
    rw [List.foldl_cons, List.foldl_cons, List.foldl_nil,
      show addF32 0 ((2 : ℚ) ^ (-24 : ℤ)) = (2 : ℚ) ^ (-24 : ℤ) by
        unfold addF32; rw [zero_add, hrw]]
    unfold addF32
    rw [add_neg_cancel, roundF32sub_zero]
  have hmean : meanF32 [(2 : ℚ) ^ (-24 : ℤ), -(2 : ℚ) ^ (-24 : ℤ)] = 0 := by
    unfold meanF32 divF32
    rw [hsum, zero_div, roundF32sub_zero]
  have hcent : centeredF32 [(2 : ℚ) ^ (-24 : ℤ), -(2 : ℚ) ^ (-24 : ℤ)] =
      [(2 : ℚ) ^ (-24 : ℤ), -(2 : ℚ) ^ (-24 : ℤ)] := by
    unfold centeredF32
    rw [hmean, List.map_cons, List.map_cons, List.map_nil,
      show subF32 ((2 : ℚ) ^ (-24 : ℤ)) 0 = (2 : ℚ) ^ (-24 : ℤ) by
        unfold subF32; rw [sub_zero, hrw],
      show subF32 (-(2 : ℚ) ^ (-24 : ℤ)) 0 = -(2 : ℚ) ^ (-24 : ℤ) by
        unfold subF32; rw [sub_zero, hrnw]]
  have hpk : peakAbs [(2 : ℚ) ^ (-24 : ℤ), -(2 : ℚ) ^ (-24 : ℤ)] =
      (2 : ℚ) ^ (-24 : ℤ) := by
    unfold peakAbs
    rw [List.map_cons, List.map_cons, List.map_nil, List.foldl_cons,
      List.foldl_cons, List.foldl_nil, abs_neg, abs_of_pos hw,
      max_eq_right hw.le, max_self]
  have heval : AudioRs.preprocess
      [(2 : ℚ) ^ (-24 : ℤ), -(2 : ℚ) ^ (-24 : ℤ)] =
      [(2 : ℚ) ^ (-24 : ℤ), -(2 : ℚ) ^ (-24 : ℤ)] := by
    unfold AudioRs.preprocess
    rw [if_neg (by simp), hcent, hpk, if_neg (by norm_num)]
  have hpk2 : peakAbs (AudioRs.preprocess
      [(2 : ℚ) ^ (-24 : ℤ), -(2 : ℚ) ^ (-24 : ℤ)]) =
      (2 : ℚ) ^ (-24 : ℤ) := by
    rw [heval, hpk]
  refine ⟨heval, ?_, ?_, ?_, ?_, ?_⟩
  · rw [hcent, hpk]
    exact hw
  · rw [hpk2]; norm_num
  · rw [hpk2]; norm_num
  · rw [hpk2]; norm_num
  · rw [hpk2]; norm_num

/-! ## IEEE-754 binary32 index accumulator
(`src/src-tauri/src/audio.rs`, `write_input_data`, the `f32` index)

Claim C10 is about the `f32` accumulator itself; it is built on the
binary32 rounding section above (`roundF32` suffices here: all values in
play lie well inside the normal range, so subnormals and overflow are
irrelevant). -/

/-- Rounding of the exact ratio `1/16000`: the nearest representable
binary32 value is `8589935 * 2^-37` (slightly above `1/16000`). -/
theorem roundF32_ratio1 : roundF32 (1 / 16000) = 8589935 / 137438953472 := by
  unfold roundF32
  rw [if_neg (by norm_num), if_neg (by norm_num)]
  unfold roundPos
  have he : Int.log 2 ((1 : ℚ) / 16000) = -14 :=
    log2_eq (by norm_num) (by norm_num) (by norm_num)
  rw [he]
  have hsc : (1 / 16000 : ℚ) * 2 ^ ((23 : ℤ) - (-14)) =
      137438953472 / 16000 := by
    norm_num
  rw [hsc]
  have hfl : ⌊(137438953472 / 16000 : ℚ)⌋ = 8589934 := by
    rw [Int.floor_eq_iff]
    constructor <;> norm_num
  have hrhe : rhe (137438953472 / 16000 : ℚ) = 8589935 := by
    rw [rhe_of_gt (by rw [hfl]; norm_num), hfl]
    norm_num
  rw [hrhe]
  norm_num

/-- The stall: at index `2048` adding the rounded ratio for rate `1` is
absorbed — the sum lies below the midpoint to the next representable
value `2048 + 2^-12`, so it rounds back to `2048`. -/
theorem roundF32_stall :
    roundF32 (2048 + 8589935 / 137438953472) = 2048 := by
  unfold roundF32
  rw [if_neg (by norm_num), if_neg (by norm_num)]
  unfold roundPos
  have he : Int.log 2 ((2048 : ℚ) + 8589935 / 137438953472) = 11 :=
    log2_eq (by norm_num) (by norm_num) (by norm_num)
  rw [he]
  have hsc : ((2048 : ℚ) + 8589935 / 137438953472) * 2 ^ ((23 : ℤ) - 11) =
      8388608 + 8589935 / 33554432 := by
    norm_num
  rw [hsc]
  have hfl : ⌊((8388608 : ℚ) + 8589935 / 33554432)⌋ = 8388608 := by
    rw [Int.floor_eq_iff]
    constructor <;> norm_num
  have hrhe : rhe ((8388608 : ℚ) + 8589935 / 33554432) = 8388608 := by
    rw [rhe_of_lt (by rw [hfl]; norm_num), hfl]
  rw [hrhe]
  norm_num

/-- The ratio as computed by the Rust source:
`input_rate as f32 / SAMPLE_RATE as f32` (each cast and the division are
correctly rounded binary32 operations). -/
def ratio_f32 (input_rate : ℕ) : ℚ :=
  roundF32 (roundF32 (input_rate : ℚ) / roundF32 16000)

/-- The `f32` index accumulator of the `write_input_data` loop after `n`
iterations: `index = 0.0`, then `index += ratioQ` with binary32 addition. -/
def f32_index (input_rate : ℕ) : ℕ → ℚ
  | 0 => 0
  | n + 1 => roundF32 (f32_index input_rate n + ratio_f32 input_rate)

/-- Termination of the `write_input_data` loop on a slice of length `len`:
the loop guard is `(index as usize) < input.len()`, so the loop exits
exactly when the accumulator first reaches `len`. -/
def ingest_loop_terminates (input_rate len : ℕ) : Prop :=
  ∃ n, len ≤ (⌊f32_index input_rate n⌋).toNat

theorem roundF32_one : roundF32 (1 : ℚ) = 1 := by
  have h := roundF32_natCast 1 (by norm_num) (by norm_num)
  simpa using h

theorem roundF32_16000 : roundF32 (16000 : ℚ) = 16000 := by
  have h := roundF32_natCast 16000 (by norm_num) (by norm_num)
  simpa using h

theorem f32_ratio_one : ratio_f32 1 = 8589935 / 137438953472 := by
  unfold ratio_f32
  rw [show ((1 : ℕ) : ℚ) = (1 : ℚ) by norm_num, roundF32_one, roundF32_16000]
  exact roundF32_ratio1

theorem f32_ratio_16000 : ratio_f32 16000 = 1 := by
  unfold ratio_f32
  rw [show ((16000 : ℕ) : ℚ) = (16000 : ℚ) by norm_num, roundF32_16000,
    show (16000 : ℚ) / 16000 = 1 by norm_num]
  exact roundF32_one

/-- At rate `1` the accumulator never leaves `[0, 2048]`: once it reaches
`2048` every further addition is absorbed by rounding. -/
theorem f32_index_rate1_bounded :
    ∀ n, 0 ≤ f32_index 1 n ∧ f32_index 1 n ≤ 2048 := by
  intro n
  induction n with
  | zero =>
    rw [show f32_index 1 0 = 0 from rfl]
    exact ⟨le_refl 0, by norm_num⟩
  | succ m ih =>
    obtain ⟨h0, h1⟩ := ih
    have hr : (0 : ℚ) < 8589935 / 137438953472 := by norm_num
    constructor
    · show 0 ≤ roundF32 (f32_index 1 m + ratio_f32 1)
      apply roundF32_nonneg
      rw [f32_ratio_one]
      linarith
    · show roundF32 (f32_index 1 m + ratio_f32 1) ≤ 2048
      rw [f32_ratio_one]
      calc roundF32 (f32_index 1 m + 8589935 / 137438953472)
          ≤ roundF32 (2048 + 8589935 / 137438953472) :=
            roundF32_mono_nonneg (by linarith) (by linarith)
        _ = 2048 := roundF32_stall

/-- Counterexample to C10 as stated: with `input_rate = 1` (which is
`> 0`) and a 2049-sample slice, the `f32` accumulator stalls at `2048`
below the input length and `write_input_data` never terminates. -/
theorem C10_counterexample : ¬ingest_loop_terminates 1 2049 := by
  rintro ⟨n, hn⟩
  obtain ⟨h0, h1⟩ := f32_index_rate1_bounded n
  have hfl : ⌊f32_index 1 n⌋ ≤ 2048 := by
    have h := Int.floor_le_floor h1
    simpa using h
  have hge : (0 : ℤ) ≤ ⌊f32_index 1 n⌋ := Int.floor_nonneg.mpr h0
  omega

/-- C10 (amended): the loop terminates whenever the accumulation is
exact — in particular at the canonical rate 16000 (ratio `1.0`) for every
slice of length at most `2^23` — but not for every `input_rate > 0`: the
`f32` accumulator can stall below the input length
(see `C10_counterexample`). -/
theorem C10_exact_accumulation_terminates (len : ℕ) (hlen : len ≤ 2 ^ 23) :
    ingest_loop_terminates 16000 len := by
  have hidx : ∀ n, n ≤ len → f32_index 16000 n = n := by
    intro n
    induction n with
    | zero => intro _; rfl
    | succ m ih =>
      intro hm
      show roundF32 (f32_index 16000 m + ratio_f32 16000) = ((m + 1 : ℕ) : ℚ)
      rw [ih (by omega), f32_ratio_16000,
        show ((m : ℚ) + 1) = ((m + 1 : ℕ) : ℚ) by push_cast; ring]
      exact roundF32_natCast (m + 1) (by omega) (by omega)
  refine ⟨len, ?_⟩
  rw [hidx len le_rfl]
  simp

/-- Witness for C10 at the canonical rate and a three-sample slice. -/
theorem C10_exact_accumulation_terminates_witness :
    3 ≤ 2 ^ 23 ∧ ingest_loop_terminates 16000 3 :=
  ⟨by norm_num, C10_exact_accumulation_terminates 3 (by norm_num)⟩

end MeetQA
